import Mathlib

/-!
Verification development for the Verilog integration tool
(`src/ai_vbuilder.py`).  The Python source is shallowly embedded:
pure helper routines become Lean functions on `String` / `List Char`,
the tool's mutable state (`self.modules`, `self.instances`) becomes an
explicit `ToolState` value threaded through the operations, Python
dictionaries become insertion-ordered association lists, and Python
exceptions become `Except` / outcome inductives.
-/

namespace AiVbuilder

/-- Characters matched by the regex class `\s` (ASCII portion, which is
all the source's patterns rely on). -/
def isSpaceChar (c : Char) : Bool :=
  c = ' ' || c = '\t' || c = '\n' || c = '\r' || c = '\x0b' || c = '\x0c'

/-- Characters matched by the regex class `\w` (ASCII portion). -/
def isWordChar (c : Char) : Bool :=
  ('a' ≤ c && c ≤ 'z') || ('A' ≤ c && c ≤ 'Z') || ('0' ≤ c && c ≤ '9') || c = '_'

/-- ASCII decimal digit. -/
def isDigitChar (c : Char) : Bool :=
  '0' ≤ c && c ≤ '9'

/-- Lower-case one ASCII character, as Python `str.lower` does on the
identifiers and keywords that occur here. -/
def lowerChar (c : Char) : Char :=
  if 'A' ≤ c && c ≤ 'Z' then Char.ofNat (c.toNat + 32) else c

/-- Python `str.lower` (ASCII portion). -/
def pyLower (s : String) : String :=
  ⟨s.data.map lowerChar⟩

/-- Python `str.strip()` (ASCII whitespace portion): drop leading and
trailing whitespace. -/
def pyStrip (s : String) : String :=
  ⟨(s.data.dropWhile isSpaceChar).reverse.dropWhile isSpaceChar |>.reverse⟩

/-- Digits of a string with Python `int` literal underscores removed,
returning `none` if the underscore placement is illegal.  Python allows
a single `_` between two digits (`int("1_0") = 10`). -/
def pyIntDigits : List Char → Option (List Char)
  | [] => some []
  | [c] => if isDigitChar c then some [c] else none
  | c :: '_' :: c' :: rest =>
      if isDigitChar c && isDigitChar c' then
        (pyIntDigits (c' :: rest)).map (c :: ·)
      else none
  | c :: c' :: rest =>
      if isDigitChar c then (pyIntDigits (c' :: rest)).map (c :: ·) else none

/-- Numeric value of a (already validated) digit list. -/
def digitsVal (l : List Char) : Nat :=
  l.foldl (fun acc c => acc * 10 + (c.toNat - '0'.toNat)) 0

/-- Python `int(s)`: optional surrounding whitespace, optional sign,
then a nonempty digit run (with legal underscores).  Returns `none`
exactly when Python raises `ValueError`. -/
def pyInt (s : String) : Option Int :=
  let l := (s.data.dropWhile isSpaceChar).reverse.dropWhile isSpaceChar |>.reverse
  match l with
  | [] => none
  | c :: rest =>
    let (neg, body) : Bool × List Char :=
      if c = '-' then (true, rest) else if c = '+' then (false, rest) else (false, l)
    match body with
    | [] => none
    | _ =>
      match pyIntDigits body with
      | none => none
      | some ds => some (if neg then -(digitsVal ds : Int) else (digitsVal ds : Int))

/-- Python dictionary assignment `d[k] = v` on an insertion-ordered
association list: an existing key keeps its position and gets the new
value, a fresh key is appended. -/
def insertOverwrite (l : List (String × α)) (kv : String × α) : List (String × α) :=
  match l with
  | [] => [kv]
  | p :: rest =>
      if p.1 = kv.1 then kv :: rest else p :: insertOverwrite rest kv

/-- Python dictionary lookup `d.get(k)` on an association list. -/
def alistGet (l : List (String × α)) (k : String) : Option α :=
  match l with
  | [] => none
  | p :: rest => if p.1 = k then some p.2 else alistGet rest k

/-! ## Data model (classes `VerilogModule` and `ModuleInstance`) -/

/-- One entry of `VerilogModule.ports` (the dict built by `add_port`). -/
structure Port where
  name : String
  direction : String
  dtype : String
  width : String
  dimensions : List String
deriving DecidableEq

/-- One entry of `VerilogModule.parameters` (built by `add_parameter`);
`type` is `None` when no type was inferred. -/
structure Parameter where
  name : String
  value : String
  type : Option String
deriving DecidableEq

/-- The `VerilogModule` class: name, originating file path, ordered
ports and parameters, and the macro mapping (insertion-ordered). -/
structure VerilogModule where
  name : String
  filepath : String
  ports : List Port
  parameters : List Parameter
  macros : List (String × String)
deriving DecidableEq

/-- The `ModuleInstance` class.  `module_ref` holds the referenced
module's data (the Python object reference becomes a value),
`connections` maps a port name to `(connection_type, signal_name)` and
`parameter_values` maps a parameter name to its override. -/
structure ModuleInstance where
  module_ref : VerilogModule
  instance_name : String
  connections : List (String × (String × String))
  parameter_values : List (String × String)
deriving DecidableEq

/-- `ModuleInstance.get_port_info`: first port of the referenced module
with the given name. -/
def get_port_info (inst : ModuleInstance) (port_name : String) : Option Port :=
  inst.module_ref.ports.find? (fun p => p.name = port_name)

/-- The tool's registry state: `self.modules` (module name to module,
insertion ordered) and `self.instances`. -/
structure ToolState where
  modules : List (String × VerilogModule)
  instances : List ModuleInstance
deriving DecidableEq

/-! ## Preprocessing (`parse_verilog_file`, lines 70-84): comment
removal, macro scan, macro substitution -/

/-- `re.sub(r"//.*?$", "", content, flags=re.MULTILINE)`: drop every
line's text from its first `//` to the line end.  The boolean is true
while inside a dropped stretch. -/
def stripLineCommentsAux : Bool → List Char → List Char
  | _, [] => []
  | true, '\n' :: rest => '\n' :: stripLineCommentsAux false rest
  | true, _ :: rest => stripLineCommentsAux true rest
  | false, '/' :: '/' :: rest => stripLineCommentsAux true rest
  | false, c :: rest => c :: stripLineCommentsAux false rest

/-- Does the text contain the two-character sequence discussed below? -/
def hasStarSlash : List Char → Bool
  | '*' :: '/' :: _ => true
  | _ :: rest => hasStarSlash rest
  | [] => false

/-- Drop through the first occurrence of the block-comment closer. -/
def dropThroughStarSlash : List Char → List Char
  | '*' :: '/' :: rest => rest
  | _ :: rest => dropThroughStarSlash rest
  | [] => []

/-- `re.sub(r"/\*.*?\*/", "", content, flags=re.DOTALL)`: repeatedly
remove from a block-comment opener through the nearest closer; an
unclosed opener stays (no match is possible there or afterwards). -/
def stripBlockCommentsAux : Nat → List Char → List Char
  | 0, l => l
  | _, [] => []
  | fuel + 1, '/' :: '*' :: rest =>
      if hasStarSlash rest then stripBlockCommentsAux fuel (dropThroughStarSlash rest)
      else '/' :: '*' :: rest
  | fuel + 1, c :: rest => c :: stripBlockCommentsAux fuel rest

/-- Case-insensitive literal-prefix test (`pat` is given lower-case),
for keywords of patterns compiled with `re.IGNORECASE`. -/
def ciPrefixOf (pat l : List Char) : Bool :=
  (l.take pat.length).map lowerChar == pat

/-- One attempt of the macro pattern with the match
start at the head of `l`.  The pattern is a backtick, the word
`define`, then at least one whitespace (newlines included), a word, at
least one whitespace, and a nonempty same-line value.  Whitespace
before the value backtracks so that the value may begin on a later
line, or (when nothing but whitespace follows) be a whitespace
character; the recorded value is stripped, as in the source.  Returns
the pair and the rest of the text after the match. -/
def matchDefineAt (l : List Char) : Option ((String × String) × List Char) :=
  if ("`define".data).isPrefixOf l then
    let r0 := l.drop 7
    if (r0.takeWhile isSpaceChar).isEmpty then none else
    let r1 := r0.dropWhile isSpaceChar
    let w := r1.takeWhile isWordChar
    if w.isEmpty then none else
    let r2 := r1.dropWhile isWordChar
    let ws2 := r2.takeWhile isSpaceChar
    if ws2.isEmpty then none else
    let r3 := r2.dropWhile isSpaceChar
    match r3 with
    | c :: _ =>
        if c = '\n' then
          if ws2.tail.any (· ≠ '\n') then some ((⟨w⟩, ""), r3) else none
        else
          some ((⟨w⟩, pyStrip ⟨r3.takeWhile (· ≠ '\n')⟩), r3.dropWhile (· ≠ '\n'))
    | [] =>
        if ws2.tail.any (· ≠ '\n') then some ((⟨w⟩, ""), []) else none
  else none

/-- `re.finditer` over the macro pattern: scan left to right, restart
after each match (lines 76-80 of the source). -/
def scanDefinesAux : Nat → List Char → List (String × String)
  | 0, _ => []
  | _, [] => []
  | fuel + 1, c :: rest =>
      match matchDefineAt (c :: rest) with
      | some (kv, r) => kv :: scanDefinesAux fuel r
      | none => scanDefinesAux fuel rest

/-- The scanned definitions of a text, in discovery order (duplicates
kept; the mapping is built from these by `insertOverwrite`). -/
def scanDefines (l : List Char) : List (String × String) :=
  scanDefinesAux (l.length + 1) l

/-- Python `str.replace(old, new)`: left-to-right, non-overlapping
replacement of every occurrence (`old` is nonempty at every call
site). -/
def pyReplaceAux (old new : List Char) : Nat → List Char → List Char
  | 0, l => l
  | _, [] => []
  | fuel + 1, c :: rest =>
      if old.isPrefixOf (c :: rest) then
        new ++ pyReplaceAux old new fuel ((c :: rest).drop old.length)
      else c :: pyReplaceAux old new fuel rest

/-- Python `text.replace(old, new)`. -/
def pyReplace (text old new : List Char) : List Char :=
  pyReplaceAux old new (text.length + 1) text

/-- Lines 83-84: for every collected macro, in mapping order, replace
each occurrence of backtick-plus-name by the value. -/
def applyMacros (macros : List (String × String)) (text : List Char) : List Char :=
  macros.foldl (fun t nv => pyReplace t ("`" ++ nv.1).data nv.2.data) text

/-! ## The module pattern (line 87), a search with `re.DOTALL` and
`re.IGNORECASE` -/

/-- Drop through the first closing parenthesis. -/
def dropThroughParen : List Char → List Char
  | ')' :: rest => rest
  | _ :: rest => dropThroughParen rest
  | [] => []

/-- Can the non-greedy body stop here?  The tail of the pattern is an
optional closing parenthesis, optional whitespace, then a
semicolon. -/
def bodyEndsAt : List Char → Bool
  | ')' :: r => (r.dropWhile isSpaceChar).head? == some ';'
  | m => (m.dropWhile isSpaceChar).head? == some ';'

/-- Length of the shortest body the non-greedy group can take. -/
def findBodyLen : List Char → Option Nat
  | [] => none
  | c :: rest =>
      if bodyEndsAt (c :: rest) then some 0
      else (findBodyLen rest).map (· + 1)

/-- The tail of the module pattern after the optional parameter group:
whitespace, an optional opening parenthesis, then the non-greedy body
up to the first stop where an optional closing parenthesis, whitespace
and the semicolon complete the match. -/
def moduleTail (r4 : List Char) : Option (List Char) :=
  let r5 := r4.dropWhile isSpaceChar
  let r6 := match r5 with
    | '(' :: t => t
    | _ => r5
  match findBodyLen r6 with
  | some k => some (r6.take k)
  | none => none

/-- One attempt of the module pattern with the match start at the head
of `l`: the keyword, whitespace, the name, then the optional greedy
`#( ... )` parameter group followed by the pattern tail.  The group is
taken — non-greedy to the first closing parenthesis; retrying later
closing parentheses can never rescue a failing tail, because the tail
fails only when no semicolon follows, and a semicolon after a later
closing parenthesis is also after the first — when it can complete and
the tail then matches; otherwise the engine backtracks and retries the
tail with the group empty.  Returns the module name and the captured
body. -/
def matchModuleAt (l : List Char) : Option (String × List Char) :=
  if ciPrefixOf "module".data l then
    let r0 := l.drop 6
    if (r0.takeWhile isSpaceChar).isEmpty then none else
    let r1 := r0.dropWhile isSpaceChar
    let nm := r1.takeWhile isWordChar
    if nm.isEmpty then none else
    let r2 := r1.dropWhile isWordChar
    let r3 := r2.dropWhile isSpaceChar
    let hashed :=
      match r3 with
      | '#' :: hr =>
          match hr.dropWhile isSpaceChar with
          | '(' :: h2 =>
              if h2.any (· = ')') then moduleTail (dropThroughParen h2)
              else none
          | _ => none
      | _ => none
    match hashed with
    | some body => some (⟨nm⟩, body)
    | none =>
        match moduleTail r3 with
        | some body => some (⟨nm⟩, body)
        | none => none
  else none

/-- `re.search` over the module pattern: first position, scanning
left to right, where an attempt succeeds. -/
def searchModule : List Char → Option (String × List Char)
  | [] => none
  | c :: rest =>
      match matchModuleAt (c :: rest) with
      | some r => some r
      | none => searchModule rest

/-! ## Port patterns (lines 98-108) and the match loop (110-115) -/

/-- A compiled-regex match object: the list of capture groups
(1-based access through `pyGroup`). -/
structure ReMatch where
  groups : List (Option String)
deriving DecidableEq

/-- Python `match.group(i)`; `IndexError` when the pattern has fewer
groups than `i`. -/
def pyGroup (m : ReMatch) (i : Nat) : Except String (Option String) :=
  match m.groups.get? (i - 1) with
  | some g => .ok g
  | none => .error "no such group"

/-- The alternation of type keywords, case-insensitive; returns the
matched slice and the rest. -/
def matchTypeKw (l : List Char) : Option (List Char × List Char) :=
  if ciPrefixOf "wire".data l then some (l.take 4, l.drop 4)
  else if ciPrefixOf "logic".data l then some (l.take 5, l.drop 5)
  else if ciPrefixOf "reg".data l then some (l.take 3, l.drop 3)
  else none

/-- The optional bracketed width (non-greedy to the first closing
bracket) followed by whitespace and the mandatory name.  When the
bracket is present but cannot complete, or the name is missing, the
attempt fails (the empty-bracket alternative leaves a non-word
character under the name group). -/
def matchBrkName (l : List Char) : Option (Option (List Char) × List Char × List Char) :=
  match l with
  | '[' :: r =>
      if r.any (· = ']') then
        let w := r.takeWhile (· ≠ ']')
        let r2 := (r.dropWhile (· ≠ ']')).drop 1
        let r3 := r2.dropWhile isSpaceChar
        let nm := r3.takeWhile isWordChar
        if nm.isEmpty then none else some (some w, nm, r3.dropWhile isWordChar)
      else none
  | _ =>
      let nm := l.takeWhile isWordChar
      if nm.isEmpty then none else some (none, nm, l.dropWhile isWordChar)

/-- Everything after the direction keyword: whitespace, optional type
keyword (backtracking to empty when the rest cannot follow it),
optional width, whitespace, name.  Returns (type, width, name,
rest). -/
def matchDirTail (l : List Char) :
    Option (Option (List Char) × Option (List Char) × List Char × List Char) :=
  let la := l.dropWhile isSpaceChar
  match matchTypeKw la with
  | some (t, lb) =>
      match matchBrkName (lb.dropWhile isSpaceChar) with
      | some (w, nm, r) => some (some t, w, nm, r)
      | none =>
          match matchBrkName la with
          | some (w, nm, r) => some (none, w, nm, r)
          | none => none
  | none =>
      match matchBrkName la with
      | some (w, nm, r) => some (none, w, nm, r)
      | none => none

/-- One attempt of the direction-led port pattern at the head of `l`;
the three direction alternatives have pairwise-incompatible prefixes,
so no backtracking across the alternation is possible. -/
def matchDirAt (l : List Char) : Option (ReMatch × List Char) :=
  let dirLen : Option Nat :=
    if ciPrefixOf "input".data l then some 5
    else if ciPrefixOf "output".data l then some 6
    else if ciPrefixOf "inout".data l then some 5
    else none
  match dirLen with
  | none => none
  | some n =>
      match matchDirTail (l.drop n) with
      | some (t, w, nm, r) =>
          some (⟨[some ⟨l.take n⟩, t.map (⟨·⟩), w.map (⟨·⟩), some ⟨nm⟩]⟩, r)
      | none => none

/-- `re.finditer` for the direction-led pattern: leftmost,
non-overlapping. -/
def finditerDirAux : Nat → List Char → List ReMatch
  | 0, _ => []
  | _, [] => []
  | fuel + 1, c :: rest =>
      match matchDirAt (c :: rest) with
      | some (m, r) => m :: finditerDirAux fuel r
      | none => finditerDirAux fuel rest

/-- All matches of the direction-led port pattern. -/
def finditerDir (l : List Char) : List ReMatch :=
  finditerDirAux (l.length + 1) l

/-- End-of-string acceptance for the fallback pattern's trailing
whitespace-then-anchor: everything remaining is whitespace. -/
def fbEnd (r : List Char) : Bool :=
  (r.dropWhile isSpaceChar).isEmpty

/-- Optional bracketed width followed by whitespace and the anchor. -/
def fbBrkEnd (l : List Char) : Option (Option (List Char)) :=
  match l with
  | '[' :: r =>
      if r.any (· = ']') then
        let w := r.takeWhile (· ≠ ']')
        let r2 := (r.dropWhile (· ≠ ']')).drop 1
        if fbEnd r2 then some (some w) else none
      else none
  | _ => if fbEnd l then some none else none

/-- After the name of the fallback pattern: whitespace, optional type
keyword (backtracking to empty), optional width, whitespace,
anchor. -/
def fbTail (r : List Char) : Option (Option (List Char) × Option (List Char)) :=
  let la := r.dropWhile isSpaceChar
  match matchTypeKw la with
  | some (t, lb) =>
      match fbBrkEnd (lb.dropWhile isSpaceChar) with
      | some w => some (some t, w)
      | none =>
          match fbBrkEnd la with
          | some w => some (none, w)
          | none => none
  | none =>
      match fbBrkEnd la with
      | some w => some (none, w)
      | none => none

/-- Greedy name with backtracking: try the whole word run, then each
shorter nonempty prefix.  The fallback pattern has three capture
groups — name, type, width — and no fourth. -/
def fbTryLens (w after : List Char) : Nat → Option ReMatch
  | 0 => none
  | k + 1 =>
      match fbTail (w.drop (k + 1) ++ after) with
      | some (t, wd) =>
          some ⟨[some ⟨w.take (k + 1)⟩, t.map (⟨·⟩), wd.map (⟨·⟩)]⟩
      | none => fbTryLens w after k

/-- `re.finditer` for the direction-less fallback pattern.  A match
must reach the string's end, so there is at most one. -/
def finditerFallback : List Char → List ReMatch
  | [] => []
  | c :: rest =>
      let w := (c :: rest).takeWhile isWordChar
      if w.isEmpty then finditerFallback rest
      else
        match fbTryLens w ((c :: rest).dropWhile isWordChar) w.length with
        | some m => [m]
        | none => finditerFallback rest

/-! ## Width formatting (the duplicated block at lines 154-170 and
196-212 of the source; both copies are character-for-character
identical, so they are embedded once) -/

/-- Python `c in s` for a single character. -/
def pyContainsChar (s : String) (c : Char) : Bool :=
  s.data.any (· = c)

/-- The `width_str` computation of `generate_top_module`: empty for
width `"1"`; a verbatim bracketed range when the width contains `:`;
`[W-1:0]` when the width parses as an integer `W > 1`; the raw width
bracketed when `int()` raises; empty when the width parses as an
integer `W ≤ 1`. -/
def formatWidth (width : String) : String :=
  if width ≠ "1" then
    if pyContainsChar width ':' then " [" ++ width ++ "]"
    else
      match pyInt width with
      | some w => if w > 1 then " [" ++ toString (w - 1) ++ ":0]" else ""
      | none => if width ≠ "1" then " [" ++ width ++ "]" else ""
  else ""

/-! ## The port-building loop (lines 110-115) -/

/-- One iteration of the loop: Python reads `group(1)` through
`group(4)` in order; an empty or absent group falls back to the
written default, and a `group(4)` access on a three-group match raises
`IndexError`. -/
def portOfMatch (m : ReMatch) : Except String Port := do
  let g1 ← pyGroup m 1
  let direction := match g1 with
    | some s => if s = "" then "wire" else pyLower s
    | none => "wire"
  let g2 ← pyGroup m 2
  let dtype := match g2 with
    | some s => if s = "" then "wire" else pyLower s
    | none => "wire"
  let g3 ← pyGroup m 3
  let width := match g3 with
    | some s => if s = "" then "1" else pyStrip s
    | none => "1"
  let g4 ← pyGroup m 4
  let name := g4.getD ""
  pure { name, direction, dtype, width, dimensions := [] }

/-- The whole loop: ports are appended in match order; the first
raising iteration aborts the parse. -/
def buildPorts (ms : List ReMatch) : Except String (List Port) :=
  ms.foldl
    (fun acc m =>
      match acc with
      | .error e => .error e
      | .ok ps =>
          match portOfMatch m with
          | .ok p => .ok (ps ++ [p])
          | .error e => .error e)
    (.ok [])

/-! ## The parameter pattern (lines 118-128) -/

/-- The tail of the parameter pattern after the optional type keyword:
whitespace, name, whitespace, equals sign, then the nonempty greedy
run of characters other than comma and semicolon (whitespace directly
after the equals sign belongs to the run but is stripped with the
value, exactly as the source strips the captured group). -/
def matchParamNameEq (l : List Char) : Option (Parameter × List Char) :=
  let la := l.dropWhile isSpaceChar
  let nm := la.takeWhile isWordChar
  if nm.isEmpty then none else
  let r1 := (la.dropWhile isWordChar).dropWhile isSpaceChar
  match r1 with
  | '=' :: r2 =>
      let run := r2.takeWhile (fun c => c ≠ ',' && c ≠ ';')
      if run.isEmpty then none else
      let value := pyStrip ⟨run⟩
      let ptype : Option String :=
        match value.data with
        | c :: _ =>
            if isDigitChar c then some "int"
            else if c = '"' || c = '\'' then some "string"
            else none
        | [] => none
      some ({ name := ⟨nm⟩, value := value, type := ptype }, r2.drop run.length)
  | _ => none

/-- One attempt of the parameter pattern at the head of `l`: keyword,
whitespace, optional `type` keyword plus whitespace (backtracking to
empty), then name, equals sign and value. -/
def matchParamAt (l : List Char) : Option (Parameter × List Char) :=
  if ciPrefixOf "parameter".data l then
    let r0 := l.drop 9
    if (r0.takeWhile isSpaceChar).isEmpty then none else
    let r1 := r0.dropWhile isSpaceChar
    let withType : Option (Parameter × List Char) :=
      if ciPrefixOf "type".data r1 then
        let r2 := r1.drop 4
        if (r2.takeWhile isSpaceChar).isEmpty then none
        else matchParamNameEq (r2.dropWhile isSpaceChar)
      else none
    match withType with
    | some res => some res
    | none => matchParamNameEq r1
  else none

/-- `re.finditer` for the parameter pattern. -/
def finditerParamsAux : Nat → List Char → List Parameter
  | 0, _ => []
  | _, [] => []
  | fuel + 1, c :: rest =>
      match matchParamAt (c :: rest) with
      | some (p, r) => p :: finditerParamsAux fuel r
      | none => finditerParamsAux fuel rest

/-- All parameters scanned from a text. -/
def finditerParams (l : List Char) : List Parameter :=
  finditerParamsAux (l.length + 1) l

/-! ## `parse_verilog_file` (lines 62-134) -/

/-- The outcomes of `parse_verilog_file`:  a `ValueError` wrapping the
read failure, the `None` return (no module header), an `IndexError`
escaping the port loop, or a parsed module. -/
inductive ParseResult where
  | ioFailure (msg : String)
  | noModule
  | groupError
  | parsed (m : VerilogModule)
deriving DecidableEq

/-- The preprocessing stage (lines 70-84): comment removal, macro
collection into the mapping, substitution.  Returns the substituted
text and the macro mapping. -/
def preprocessText (content : String) : List Char × List (String × String) :=
  let c1 := stripLineCommentsAux false content.data
  let c2 := stripBlockCommentsAux c1.length c1
  let macros := (scanDefines c2).foldl insertOverwrite []
  (applyMacros macros c2, macros)

/-- The body of `parse_verilog_file` after a successful read: strip
comments, scan and substitute macros, locate the module, extract
ports (direction-led pattern first, the direction-less fallback when
it finds nothing), extract parameters from the full substituted text,
and attach the macro mapping. -/
def parse_verilog_content (content : String) (filepath : String) : ParseResult :=
  let c3 := (preprocessText content).1
  let macros := (preprocessText content).2
  match searchModule c3 with
  | none => .noModule
  | some (module_name, port_section) =>
      let pm := finditerDir port_section
      let pm2 := if pm.isEmpty then finditerFallback port_section else pm
      match buildPorts pm2 with
      | .error _ => .groupError
      | .ok ports =>
          .parsed
            { name := module_name
              filepath := filepath
              ports := ports
              parameters := finditerParams c3
              macros := macros }

/-- `parse_verilog_file`, with the file read modelled as its result:
a read failure is re-raised as a `ValueError` carrying the cause and
never reaches the parsing stage. -/
def parse_verilog_file (readResult : Except String String) (filepath : String) :
    ParseResult :=
  match readResult with
  | .error e => .ioFailure ("Error reading file: " ++ e)
  | .ok content => parse_verilog_content content filepath

/-! ## `generate_top_module` (lines 136-248) -/

/-- The top-level-port loop (lines 144-176): for every instance in
order and every entry of its connection mapping in order, skip
unresolvable ports and empty signal names, then append a declaration
when the connection type and the port direction are both `input` or
both `output`; everything else is skipped. -/
def topPortStep (inst : ModuleInstance) (acc2 : List String)
    (e : String × (String × String)) : List String :=
  let port_name := e.1
  let conn_type := e.2.1
  let signal_name := e.2.2
  match get_port_info inst port_name with
  | none => acc2
  | some pi =>
      if signal_name = "" then acc2
      else
        let width_str := formatWidth pi.width
        if conn_type = "input" ∧ pi.direction = "input" then
          acc2 ++ ["input wire" ++ width_str ++ " " ++ signal_name]
        else if conn_type = "output" ∧ pi.direction = "output" then
          acc2 ++ ["output wire" ++ width_str ++ " " ++ signal_name]
        else acc2

/-- The accumulated `top_ports` list. -/
def genTopPorts (instances : List ModuleInstance) : List String :=
  instances.foldl (fun acc inst => inst.connections.foldl (topPortStep inst) acc) []

/-- The wire-declaration loop (lines 185-214): a dictionary keyed by
signal name, assigned for every `wire`-type connection with a
resolvable port and nonempty signal (later assignments overwrite the
width, keeping the first position). -/
def wireStep (inst : ModuleInstance) (acc2 : List (String × String))
    (e : String × (String × String)) : List (String × String) :=
  let port_name := e.1
  let conn_type := e.2.1
  let signal_name := e.2.2
  match get_port_info inst port_name with
  | none => acc2
  | some pi =>
      if signal_name = "" then acc2
      else if conn_type = "wire" then
        insertOverwrite acc2 (signal_name, formatWidth pi.width)
      else acc2

/-- The accumulated `wires` dictionary. -/
def genWires (instances : List ModuleInstance) : List (String × String) :=
  instances.foldl (fun acc inst => inst.connections.foldl (wireStep inst) acc) []

/-- The per-instance block (lines 222-245): provenance comment,
parameter overrides in module-declared order (instance value when
present, module default otherwise), then every module port in
module-declared order with its connected signal or an empty
connection. -/
def instanceLines (inst : ModuleInstance) : List String :=
  let param_strs := inst.module_ref.parameters.map
    (fun param =>
      let value := (alistGet inst.parameter_values param.name).getD param.value
      "." ++ param.name ++ "(" ++ value ++ ")")
  let port_strs := inst.module_ref.ports.map
    (fun port =>
      match alistGet inst.connections port.name with
      | some conn => "." ++ port.name ++ "(" ++ conn.2 ++ ")"
      | none => "." ++ port.name ++ "()")
  let param_conn :=
    if param_strs.isEmpty then ""
    else " #(\n    " ++ String.intercalate ",\n    " param_strs ++ "\n  )"
  ["  // Source: " ++ inst.module_ref.filepath,
   "  " ++ inst.module_ref.name ++ param_conn ++ " " ++ inst.instance_name ++ " (",
   String.intercalate ",\n    " port_strs,
   "  );\n"]

/-- `generate_top_module`: assemble the line list and join it with
newlines. -/
def generate_top_module (instances : List ModuleInstance) (top_module_name : String) :
    String :=
  let lines1 := ["// Auto-generated top module: " ++ top_module_name,
                 "module " ++ top_module_name ++ " ("]
  let top_ports := genTopPorts instances
  let lines2 := lines1 ++
    (if top_ports.isEmpty then [] else [String.intercalate ",\n  " top_ports])
  let lines3 := lines2 ++ [");\n"]
  let wires := genWires instances
  let lines4 := lines3 ++ wires.map (fun p => "  wire" ++ p.2 ++ " " ++ p.1 ++ ";")
  let lines5 := lines4 ++ (if wires.isEmpty then [] else [""])
  let lines6 := lines5 ++ instances.foldl (fun acc inst => acc ++ instanceLines inst) []
  String.intercalate "\n" (lines6 ++ ["endmodule"])

/-- Modelled from the spec's words for top-level port synthesis
(§4.3 step 1): a (instance, port, connection) triple contributes the
declaration `direction wire WIDTH name` exactly when the connection
kind equals the referenced port's direction (both `input` or both
`output`) and a signal name is present; used as the declarative
counterpart of the loop in `genTopPorts`. -/
def topPortDeclSpec (inst : ModuleInstance) (e : String × (String × String)) :
    Option String :=
  match get_port_info inst e.1 with
  | none => none
  | some pi =>
      if e.2.2 ≠ "" ∧
         ((e.2.1 = "input" ∧ pi.direction = "input") ∨
          (e.2.1 = "output" ∧ pi.direction = "output")) then
        some (pi.direction ++ " wire" ++ formatWidth pi.width ++ " " ++ e.2.2)
      else none

/-- Declarative form of the emitted top-level port list: instance
order, then per-instance connection order, no deduplication. -/
def genTopPortsSpec (instances : List ModuleInstance) : List String :=
  instances.flatMap (fun inst => inst.connections.filterMap (topPortDeclSpec inst))

/-- The `generate_top_module` call on the tool state.  The method body
(lines 138-248) contains no assignment to `self`, to any instance
attribute or to any module attribute — it only reads them and writes
function-local variables — so the state-passing translation of the
call returns the state it was given. -/
def generate_top_module_call (st : ToolState) (top_module_name : String) :
    String × ToolState :=
  (generate_top_module st.instances top_module_name, st)

/-! ## Persistence codec.  The registry is serialized to the JSON value
built in `serialize_data` (lines 908-932), dumped to text, base64
encoded, and appended to the generated output; opening scans for the
marker and reverses the chain (lines 882-906, 934-969).  JSON values
are modelled by `PValue` (the shapes Python's `json` module passes
around). -/

/-- A parsed JSON value: `null`, booleans, numbers (kept as their raw
lexeme — the payloads this tool writes contain none), strings, arrays
and insertion-ordered objects. -/
inductive PValue where
  | null
  | bool (b : Bool)
  | num (raw : String)
  | str (s : String)
  | arr (elts : List PValue)
  | obj (fields : List (String × PValue))

/-- Lower-case hexadecimal digit. -/
def hexDigitChar (n : Nat) : Char :=
  if n < 10 then Char.ofNat ('0'.toNat + n) else Char.ofNat ('a'.toNat + (n - 10))

/-- A `\uXXXX` escape for a code unit below `0x10000`. -/
def uEscape (n : Nat) : List Char :=
  ['\\', 'u', hexDigitChar (n / 4096 % 16), hexDigitChar (n / 256 % 16),
   hexDigitChar (n / 16 % 16), hexDigitChar (n % 16)]

/-- `json.dumps` escaping of one character with the default
`ensure_ascii=True`: the two-character escapes, `\u00xx` for other
control characters, `\uXXXX` (surrogate pairs above `0xffff`) for
everything outside printable ASCII. -/
def jsonEscapeChar (c : Char) : List Char :=
  if c = '"' then ['\\', '"']
  else if c = '\\' then ['\\', '\\']
  else if c = '\n' then ['\\', 'n']
  else if c = '\r' then ['\\', 'r']
  else if c = '\t' then ['\\', 't']
  else if c = '\x08' then ['\\', 'b']
  else if c = '\x0c' then ['\\', 'f']
  else if c.toNat < 0x20 || c.toNat > 0x7e then
    if c.toNat < 0x10000 then uEscape c.toNat
    else
      uEscape (0xd800 + (c.toNat - 0x10000) / 0x400) ++
      uEscape (0xdc00 + (c.toNat - 0x10000) % 0x400)
  else [c]

/-- A JSON string literal for `s`. -/
def jsonQuote (s : String) : String :=
  "\"" ++ ⟨s.data.flatMap jsonEscapeChar⟩ ++ "\""

mutual

/-- `json.dumps` with its default separators `", "` and `": "`. -/
def jsonDumps : PValue → String
  | .null => "null"
  | .bool b => if b then "true" else "false"
  | .num raw => raw
  | .str s => jsonQuote s
  | .arr l => "[" ++ jsonDumpsArr l ++ "]"
  | .obj l => "\x7b" ++ jsonDumpsObjFields l ++ "\x7d"

/-- Comma-joined array elements. -/
def jsonDumpsArr : List PValue → String
  | [] => ""
  | [v] => jsonDumps v
  | v :: w :: rest => jsonDumps v ++ ", " ++ jsonDumpsArr (w :: rest)

/-- Comma-joined object fields. -/
def jsonDumpsObjFields : List (String × PValue) → String
  | [] => ""
  | [(k, v)] => jsonQuote k ++ ": " ++ jsonDumps v
  | (k, v) :: f :: rest => jsonQuote k ++ ": " ++ jsonDumps v ++ ", " ++ jsonDumpsObjFields (f :: rest)

end

/-- UTF-8 bytes of one character (`str.encode()`). -/
def utf8EncodeChar (c : Char) : List Nat :=
  let n := c.toNat
  if n < 0x80 then [n]
  else if n < 0x800 then [0xc0 + n / 64, 0x80 + n % 64]
  else if n < 0x10000 then [0xe0 + n / 4096, 0x80 + n / 64 % 64, 0x80 + n % 64]
  else [0xf0 + n / 0x40000, 0x80 + n / 4096 % 64, 0x80 + n / 64 % 64, 0x80 + n % 64]

/-- UTF-8 bytes of a string. -/
def utf8Encode (s : String) : List Nat :=
  s.data.flatMap utf8EncodeChar

/-- Strict UTF-8 decoding (`bytes.decode()`): rejects truncated
sequences, stray continuation bytes, overlong forms, surrogates and
values above the Unicode range. -/
def utf8DecodeAux : Nat → List Nat → Option (List Char)
  | 0, _ => none
  | _, [] => some []
  | fuel + 1, b :: rest =>
      if b < 0x80 then (utf8DecodeAux fuel rest).map (Char.ofNat b :: ·)
      else if 0xc2 ≤ b && b ≤ 0xdf then
        match rest with
        | b2 :: r2 =>
            if 0x80 ≤ b2 && b2 ≤ 0xbf then
              (utf8DecodeAux fuel r2).map (Char.ofNat ((b - 0xc0) * 64 + (b2 - 0x80)) :: ·)
            else none
        | [] => none
      else if 0xe0 ≤ b && b ≤ 0xef then
        match rest with
        | b2 :: b3 :: r2 =>
            let lo2 := if b = 0xe0 then 0xa0 else 0x80
            let hi2 := if b = 0xed then 0x9f else 0xbf
            if lo2 ≤ b2 && b2 ≤ hi2 && 0x80 ≤ b3 && b3 ≤ 0xbf then
              (utf8DecodeAux fuel r2).map
                (Char.ofNat ((b - 0xe0) * 4096 + (b2 - 0x80) * 64 + (b3 - 0x80)) :: ·)
            else none
        | _ => none
      else if 0xf0 ≤ b && b ≤ 0xf4 then
        match rest with
        | b2 :: b3 :: b4 :: r2 =>
            let lo2 := if b = 0xf0 then 0x90 else 0x80
            let hi2 := if b = 0xf4 then 0x8f else 0xbf
            if lo2 ≤ b2 && b2 ≤ hi2 && 0x80 ≤ b3 && b3 ≤ 0xbf && 0x80 ≤ b4 && b4 ≤ 0xbf then
              (utf8DecodeAux fuel r2).map
                (Char.ofNat ((b - 0xf0) * 0x40000 + (b2 - 0x80) * 4096 +
                             (b3 - 0x80) * 64 + (b4 - 0x80)) :: ·)
            else none
        | _ => none
      else none

/-- Strict UTF-8 decoding of a byte list. -/
def utf8Decode (bytes : List Nat) : Option String :=
  (utf8DecodeAux (bytes.length + 1) bytes).map (⟨·⟩)

/-- The base64 alphabet character of a 6-bit value. -/
def b64Char (n : Nat) : Char :=
  if n < 26 then Char.ofNat ('A'.toNat + n)
  else if n < 52 then Char.ofNat ('a'.toNat + (n - 26))
  else if n < 62 then Char.ofNat ('0'.toNat + (n - 52))
  else if n = 62 then '+'
  else '/'

/-- `base64.b64encode` over a byte list (standard alphabet with `=`
padding). -/
def b64EncodeList : List Nat → List Char
  | [] => []
  | [a] => [b64Char (a / 4), b64Char (a % 4 * 16), '=', '=']
  | [a, b] => [b64Char (a / 4), b64Char (a % 4 * 16 + b / 16), b64Char (b % 16 * 4), '=']
  | a :: b :: c :: rest =>
      b64Char (a / 4) :: b64Char (a % 4 * 16 + b / 16) ::
      b64Char (b % 16 * 4 + c / 64) :: b64Char (c % 64) :: b64EncodeList rest

/-- A character of the base64 data alphabet. -/
def isB64AlphaChar (c : Char) : Bool :=
  ('A' ≤ c && c ≤ 'Z') || ('a' ≤ c && c ≤ 'z') || ('0' ≤ c && c ≤ '9') || c = '+' || c = '/'

/-- 6-bit value of a base64 alphabet character. -/
def b64Val (c : Char) : Nat :=
  if 'A' ≤ c && c ≤ 'Z' then c.toNat - 65
  else if 'a' ≤ c && c ≤ 'z' then c.toNat - 97 + 26
  else if '0' ≤ c && c ≤ '9' then c.toNat - 48 + 52
  else if c = '+' then 62
  else 63

/-- Decoding of the retained characters: full quads yield three bytes;
a `=` at a quad boundary ends the data (anything after is ignored);
two data characters followed by `==` yield one byte, three followed by
`=` yield two; a leftover of one, two or three data characters without
the required padding is an error, as is padding after a single
character. -/
def b64DecodeToks : List Char → Option (List Nat)
  | [] => some []
  | c1 :: r1 =>
      if c1 = '=' then some []
      else
        match r1 with
        | [] => none
        | c2 :: r2 =>
            if c2 = '=' then none
            else
              match r2 with
              | [] => none
              | c3 :: r3 =>
                  if c3 = '=' then
                    if r3.head? = some '=' then some [b64Val c1 * 4 + b64Val c2 / 16]
                    else none
                  else
                    match r3 with
                    | [] => none
                    | c4 :: r4 =>
                        if c4 = '=' then
                          some [b64Val c1 * 4 + b64Val c2 / 16,
                                b64Val c2 % 16 * 16 + b64Val c3 / 4]
                        else
                          (b64DecodeToks r4).map
                            (fun tl =>
                              (b64Val c1 * 4 + b64Val c2 / 16) ::
                              (b64Val c2 % 16 * 16 + b64Val c3 / 4) ::
                              (b64Val c3 % 4 * 64 + b64Val c4) :: tl)

/-- `base64.b64decode` of a text payload: non-ASCII input fails the
internal encode, characters outside the alphabet and padding are
discarded, then the retained characters are decoded. -/
def pyB64Decode (s : String) : Option (List Nat) :=
  if s.data.any (fun c => 128 ≤ c.toNat) then none
  else b64DecodeToks (s.data.filter (fun c => isB64AlphaChar c || c = '='))

/-! ## `serialize_data` (lines 908-932) -/

/-- A port dictionary as placed in the serialized structure. -/
def portToP (p : Port) : PValue :=
  .obj [("name", .str p.name), ("direction", .str p.direction), ("dtype", .str p.dtype),
        ("width", .str p.width), ("dimensions", .arr (p.dimensions.map .str))]

/-- A parameter dictionary as placed in the serialized structure. -/
def paramToP (p : Parameter) : PValue :=
  .obj [("name", .str p.name), ("value", .str p.value),
        ("type", match p.type with | some t => .str t | none => .null)]

/-- One entry of the serialized `"modules"` mapping. -/
def moduleToP (m : VerilogModule) : PValue :=
  .obj [("filepath", .str m.filepath),
        ("ports", .arr (m.ports.map portToP)),
        ("parameters", .arr (m.parameters.map paramToP)),
        ("macros", .obj (m.macros.map (fun kv => (kv.1, PValue.str kv.2))))]

/-- One entry of the serialized `"instances"` list; the connection
tuples become two-element arrays. -/
def instToP (inst : ModuleInstance) : PValue :=
  .obj [("module", .str inst.module_ref.name),
        ("instance_name", .str inst.instance_name),
        ("connections",
         .obj (inst.connections.map (fun kv => (kv.1, PValue.arr [.str kv.2.1, .str kv.2.2])))),
        ("parameter_values",
         .obj (inst.parameter_values.map (fun kv => (kv.1, PValue.str kv.2))))]

/-- The dictionary `serialize_data` builds before `json.dumps`. -/
def serialize_value (modules : List (String × VerilogModule))
    (instances : List ModuleInstance) : PValue :=
  .obj [("modules", .obj (modules.map (fun nm => (nm.1, moduleToP nm.2)))),
        ("instances", .arr (instances.map instToP))]

/-- `serialize_data`: the dictionary dumped to JSON text. -/
def serialize_data (st : ToolState) : String :=
  jsonDumps (serialize_value st.modules st.instances)

/-- Line 872: the base64 text of the encoded serialized registry. -/
def encodedPayload (st : ToolState) : String :=
  ⟨b64EncodeList (utf8Encode (serialize_data st))⟩

/-- `save_project` (lines 868-877) after the dialog: the generated
module text followed by the marker line carrying the base64-encoded
serialized registry. -/
def save_project_text (st : ToolState) (top_name : String) : String :=
  generate_top_module st.instances top_name ++ "\n\n// VERILOG_TOOL_DATA: " ++
    encodedPayload st

/-! ## `json.loads` -/

/-- JSON insignificant whitespace. -/
def jsonSkipWs (l : List Char) : List Char :=
  l.dropWhile (fun c => c = ' ' || c = '\t' || c = '\n' || c = '\r')

/-- Value of a hexadecimal digit (code points 48-57, 97-102, 65-70). -/
def hexVal (c : Char) : Option Nat :=
  let n := c.toNat
  if 48 ≤ n ∧ n ≤ 57 then some (n - 48)
  else if 97 ≤ n ∧ n ≤ 102 then some (n - 87)
  else if 65 ≤ n ∧ n ≤ 70 then some (n - 55)
  else none

/-- Four hexadecimal digits. -/
def hex4 : List Char → Option (Nat × List Char)
  | a :: b :: c :: d :: rest =>
      match hexVal a, hexVal b, hexVal c, hexVal d with
      | some va, some vb, some vc, some vd =>
          some (va * 4096 + vb * 256 + vc * 16 + vd, rest)
      | _, _, _, _ => none
  | _ => none

/-- One step of the JSON string-body parser, with `k` the continuation
for the rest of the body. -/
def jsonParseStringStep (k : List Char → Option (List Char × List Char)) :
    List Char → Option (List Char × List Char)
  | [] => none
  | c :: rest =>
      if c = '"' then some ([], rest)
      else if c = '\\' then
        match rest with
        | [] => none
        | e :: r2 =>
            if e = '"' || e = '\\' || e = '/' then
              (k r2).map (fun p => (e :: p.1, p.2))
            else if e = 'n' then
              (k r2).map (fun p => ('\n' :: p.1, p.2))
            else if e = 't' then
              (k r2).map (fun p => ('\t' :: p.1, p.2))
            else if e = 'r' then
              (k r2).map (fun p => ('\r' :: p.1, p.2))
            else if e = 'b' then
              (k r2).map (fun p => ('\x08' :: p.1, p.2))
            else if e = 'f' then
              (k r2).map (fun p => ('\x0c' :: p.1, p.2))
            else if e = 'u' then
              match hex4 r2 with
              | none => none
              | some (n, r3) =>
                  if 0xd800 ≤ n && n ≤ 0xdbff then
                    match r3 with
                    | '\\' :: 'u' :: r4 =>
                        match hex4 r4 with
                        | some (n2, r5) =>
                            if 0xdc00 ≤ n2 && n2 ≤ 0xdfff then
                              (k r5).map
                                (fun p => (Char.ofNat (0x10000 + (n - 0xd800) * 0x400 +
                                                        (n2 - 0xdc00)) :: p.1, p.2))
                            else none
                        | none => none
                    | _ => none
                  else if 0xdc00 ≤ n && n ≤ 0xdfff then none
                  else (k r3).map (fun p => (Char.ofNat n :: p.1, p.2))
            else none
      else if c.toNat < 0x20 then none
      else (k rest).map (fun p => (c :: p.1, p.2))

/-- JSON string body after the opening quote: content and the rest
after the closing quote.  Control characters must be escaped; a
`\uXXXX` high surrogate must be followed by a low one (the decoder
target cannot hold lone surrogates). -/
def jsonParseStringAux : Nat → List Char → Option (List Char × List Char)
  | 0, _ => none
  | fuel + 1, l => jsonParseStringStep (jsonParseStringAux fuel) l

/-- A JSON number lexeme (kept raw). -/
def jsonParseNum (l : List Char) : Option (List Char × List Char) :=
  let (sign, l1) : List Char × List Char :=
    match l with
    | '-' :: r => (['-'], r)
    | _ => ([], l)
  let intPart : Option (List Char × List Char) :=
    match l1 with
    | '0' :: r => some (['0'], r)
    | c :: _ =>
        if isDigitChar c && c ≠ '0' then
          some (l1.takeWhile isDigitChar, l1.dropWhile isDigitChar)
        else none
    | [] => none
  match intPart with
  | none => none
  | some (ip, l2) =>
      let (fp, l3) : List Char × List Char :=
        match l2 with
        | '.' :: r =>
            let ds := r.takeWhile isDigitChar
            if ds.isEmpty then ([], l2) else ('.' :: ds, r.dropWhile isDigitChar)
        | _ => ([], l2)
      if fp.isEmpty && (match l2 with | '.' :: _ => true | _ => false) then none
      else
        let (ep, l4) : List Char × List Char :=
          match l3 with
          | c :: r =>
              if c = 'e' || c = 'E' then
                let (sg, r1) : List Char × List Char :=
                  match r with
                  | s :: r2 => if s = '+' || s = '-' then ([s], r2) else ([], r)
                  | [] => ([], r)
                let ds := r1.takeWhile isDigitChar
                if ds.isEmpty then ([], l3) else (c :: (sg ++ ds), r1.dropWhile isDigitChar)
              else ([], l3)
          | [] => ([], l3)
        some (sign ++ ip ++ fp ++ ep, l4)

/-- The JSON value parser on input whose leading whitespace is already
dropped, with the array-items and object-fields loops as
continuations. -/
def jsonParseValueCore
    (pArr : List Char → List PValue → Option (List PValue × List Char))
    (pObj : List Char → List (String × PValue) → Option (List (String × PValue) × List Char)) :
    List Char → Option (PValue × List Char)
  | [] => none
  | '"' :: r => (jsonParseStringAux (r.length + 1) r).map (fun p => (.str ⟨p.1⟩, p.2))
  | '\x7b' :: r =>
      (match jsonSkipWs r with
       | '\x7d' :: r2 => some (.obj [], r2)
       | _ => (pObj r []).map (fun p => (.obj p.1, p.2)))
  | '[' :: r =>
      (match jsonSkipWs r with
       | ']' :: r2 => some (.arr [], r2)
       | _ => (pArr r []).map (fun p => (.arr p.1, p.2)))
  | 'n' :: 'u' :: 'l' :: 'l' :: r => some (.null, r)
  | 't' :: 'r' :: 'u' :: 'e' :: r => some (.bool true, r)
  | 'f' :: 'a' :: 'l' :: 's' :: 'e' :: r => some (.bool false, r)
  | m => (jsonParseNum m).map (fun p => (.num ⟨p.1⟩, p.2))

/-- The array-items loop after its element parse, with the loop as a
continuation. -/
def jsonParseArrItemsCore
    (pa : List Char → List PValue → Option (List PValue × List Char))
    (res : Option (PValue × List Char)) (acc : List PValue) :
    Option (List PValue × List Char) :=
  match res with
  | none => none
  | some (v, r) =>
      match jsonSkipWs r with
      | ',' :: r2 => pa r2 (acc ++ [v])
      | ']' :: r2 => some (acc ++ [v], r2)
      | _ => none

/-- The object-fields loop on input whose leading whitespace is
already dropped; duplicate keys overwrite as `dict` construction
does. -/
def jsonParseObjFieldsCore
    (pv : List Char → Option (PValue × List Char))
    (po : List Char → List (String × PValue) → Option (List (String × PValue) × List Char)) :
    List Char → List (String × PValue) → Option (List (String × PValue) × List Char)
  | '"' :: r, acc =>
      (match jsonParseStringAux (r.length + 1) r with
       | none => none
       | some (k, r2) =>
          match jsonSkipWs r2 with
          | ':' :: r3 =>
              (match pv r3 with
               | none => none
               | some (v, r4) =>
                  match jsonSkipWs r4 with
                  | ',' :: r5 => po r5 (insertOverwrite acc (⟨k⟩, v))
                  | '\x7d' :: r5 => some (insertOverwrite acc (⟨k⟩, v), r5)
                  | _ => none)
          | _ => none)
  | _, _ => none

mutual

/-- Recursive-descent JSON value parser (fueled). -/
def jsonParseValue : Nat → List Char → Option (PValue × List Char)
  | 0, _ => none
  | fuel + 1, l =>
      jsonParseValueCore (jsonParseArrItems fuel) (jsonParseObjFields fuel) (jsonSkipWs l)

/-- Comma-separated array items (at least one). -/
def jsonParseArrItems : Nat → List Char → List PValue → Option (List PValue × List Char)
  | 0, _, _ => none
  | fuel + 1, l, acc =>
      jsonParseArrItemsCore (jsonParseArrItems fuel) (jsonParseValue fuel l) acc

/-- Comma-separated object fields (at least one). -/
def jsonParseObjFields : Nat → List Char → List (String × PValue) →
    Option (List (String × PValue) × List Char)
  | 0, _, _ => none
  | fuel + 1, l, acc =>
      jsonParseObjFieldsCore (jsonParseValue fuel) (jsonParseObjFields fuel) (jsonSkipWs l) acc

end

/-- `json.loads`: one value, whitespace around it, nothing else. -/
def jsonLoads (s : String) : Option PValue :=
  match jsonParseValue (4 * s.data.length + 8) s.data with
  | some (v, rest) => if (jsonSkipWs rest).isEmpty then some v else none
  | none => none

/-! ## `deserialize_data` (lines 934-969) and `open_project`
(lines 882-906) -/

/-- The string held by a `str` value. -/
def pFromStr : PValue → Option String
  | .str s => some s
  | _ => none

/-- Elementwise conversion of a list, failing when any element
fails. -/
def mapMOpt (f : α → Option β) : List α → Option (List β)
  | [] => some []
  | x :: rest =>
      match f x with
      | none => none
      | some y => (mapMOpt f rest).map (y :: ·)

/-- A port record from its serialized dictionary.  (Python assigns the
raw structure without validating it; the conversion accepts exactly
the shape `serialize_data` writes, which is the boundary at which this
typed embedding represents such a payload.) -/
def portFromP (v : PValue) : Option Port :=
  match v with
  | .obj l => do
      let nm ← (alistGet l "name").bind pFromStr
      let dir ← (alistGet l "direction").bind pFromStr
      let dt ← (alistGet l "dtype").bind pFromStr
      let w ← (alistGet l "width").bind pFromStr
      let dims ← match alistGet l "dimensions" with
        | some (.arr items) => mapMOpt pFromStr items
        | _ => none
      pure { name := nm, direction := dir, dtype := dt, width := w, dimensions := dims }
  | _ => none

/-- A parameter record from its serialized dictionary. -/
def paramFromP (v : PValue) : Option Parameter :=
  match v with
  | .obj l => do
      let nm ← (alistGet l "name").bind pFromStr
      let value ← (alistGet l "value").bind pFromStr
      let ty ← match alistGet l "type" with
        | some .null => some none
        | some (.str t) => some (some t)
        | _ => none
      pure { name := nm, value := value, type := ty }
  | _ => none

/-- A string-to-string mapping from a serialized object. -/
def strMapFromP (v : PValue) : Option (List (String × String)) :=
  match v with
  | .obj l => mapMOpt (fun kv => (pFromStr kv.2).map (kv.1, ·)) l
  | _ => none

/-- The connection mapping from its serialized object of two-element
arrays. -/
def connsFromP (v : PValue) : Option (List (String × (String × String))) :=
  match v with
  | .obj l =>
      mapMOpt (fun kv =>
        match kv.2 with
        | .arr [.str a, .str b] => some (kv.1, (a, b))
        | _ => none) l
  | _ => none

/-- One module of the loop at lines 944-950 (the module's name is the
mapping key). -/
def moduleFromP (name : String) (v : PValue) : Option VerilogModule :=
  match v with
  | .obj l => do
      let fp ← (alistGet l "filepath").bind pFromStr
      let ports ← match alistGet l "ports" with
        | some (.arr items) => mapMOpt portFromP items
        | _ => none
      let params ← match alistGet l "parameters" with
        | some (.arr items) => mapMOpt paramFromP items
        | _ => none
      let macs ← (alistGet l "macros").bind strMapFromP
      pure { name := name, filepath := fp, ports := ports, parameters := params,
             macros := macs }
  | _ => none

/-- The module loop: a failing entry raises with the modules built so
far already assigned (the error value). -/
def loadModules : List (String × PValue) → List (String × VerilogModule) →
    Except (List (String × VerilogModule)) (List (String × VerilogModule))
  | [], acc => .ok acc
  | (name, md) :: rest, acc =>
      match moduleFromP name md with
      | some m => loadModules rest (insertOverwrite acc (name, m))
      | none => .error acc

/-- One entry of the instance loop (lines 953-967): `.ok none` is the
silent drop of an instance whose module is unknown (checked before any
other field is touched); `.error` is a raised exception. -/
def instFromP (modules : List (String × VerilogModule)) (v : PValue) :
    Except Unit (Option ModuleInstance) :=
  match v with
  | .obj l =>
      match alistGet l "module" with
      | none => .error ()
      | some (.arr _) => .error ()
      | some (.obj _) => .error ()
      | some (.str s) =>
          match alistGet modules s with
          | none => .ok none
          | some m =>
              match alistGet l "instance_name" with
              | some (.str iname) =>
                  match (alistGet l "connections").bind connsFromP with
                  | some conns =>
                      match (alistGet l "parameter_values").bind strMapFromP with
                      | some pvals =>
                          .ok (some { module_ref := m, instance_name := iname,
                                      connections := conns, parameter_values := pvals })
                      | none => .error ()
                  | none => .error ()
              | _ => .error ()
      | some _ => .ok none
  | _ => .error ()

/-- The instance loop: a failing entry raises with the instances
appended so far (the error value). -/
def loadInstances (modules : List (String × VerilogModule)) :
    List PValue → List ModuleInstance →
    Except (List ModuleInstance) (List ModuleInstance)
  | [], acc => .ok acc
  | v :: rest, acc =>
      match instFromP modules v with
      | .ok (some inst) => loadInstances modules rest (acc ++ [inst])
      | .ok none => loadInstances modules rest acc
      | .error _ => .error acc

/-- The body of `deserialize_data` after `json.loads`: the registry is
cleared first (lines 937-941), then repopulated; any exception leaves
whatever had been rebuilt by that point.  The boolean reports whether
the method ran to completion.  The prior state is never consulted —
no branch of the body mentions it — which is what claims about
"registry left unchanged" are judged against. -/
def deserialize_body (data : PValue) (_st : ToolState) : ToolState × Bool :=
  match data with
  | .obj fields =>
      match alistGet fields "modules" with
      | some (.obj mods) =>
          (match loadModules mods [] with
           | .error partialMods => (⟨partialMods, []⟩, false)
           | .ok allMods =>
               match alistGet fields "instances" with
               | none => (⟨allMods, []⟩, false)
               | some (.arr items) =>
                   (match loadInstances allMods items [] with
                    | .error partialInsts => (⟨allMods, partialInsts⟩, false)
                    | .ok insts => (⟨allMods, insts⟩, true))
               | some (.obj []) => (⟨allMods, []⟩, true)
               | some (.str s) =>
                   if s = "" then (⟨allMods, []⟩, true) else (⟨allMods, []⟩, false)
               | some _ => (⟨allMods, []⟩, false))
      | some _ => (⟨[], []⟩, false)
      | none => (⟨[], []⟩, false)
  | _ => (⟨[], []⟩, false)

/-- `deserialize_data`: `json.loads` raises before any mutation, so a
malformed text leaves the state unchanged. -/
def deserialize_data (serialized : String) (st : ToolState) : ToolState × Bool :=
  match jsonLoads serialized with
  | none => (st, false)
  | some data => deserialize_body data st

/-- The outcomes `open_project` reports: the "no tool data found"
message, the caught load exception, or success. -/
inductive OpenOutcome where
  | noToolData
  | loadFailed
  | loaded
deriving DecidableEq

/-- The scan at line 895: the first occurrence of the marker that is
followed by at least one non-whitespace character, capturing the
maximal such run. -/
def scanToolDataAux : Nat → List Char → Option String
  | 0, _ => none
  | _, [] => none
  | fuel + 1, c :: rest =>
      let marker := "// VERILOG_TOOL_DATA: ".data
      if marker.isPrefixOf (c :: rest) then
        let tok := ((c :: rest).drop marker.length).takeWhile (fun ch => !isSpaceChar ch)
        if tok.isEmpty then scanToolDataAux fuel rest else some ⟨tok⟩
      else scanToolDataAux fuel rest

/-- The embedded-payload scan over a whole text. -/
def scanToolData (content : String) : Option String :=
  scanToolDataAux (content.data.length + 1) content.data

/-- `open_project` after a successful read: scan for the marker
(reporting `noToolData` without touching the registry when absent),
then decode and deserialize; every exception of that chain is caught
and reported as a load failure, with the registry in whatever state
`deserialize_data` left it. -/
def open_project (content : String) (st : ToolState) : ToolState × OpenOutcome :=
  match scanToolData content with
  | none => (st, .noToolData)
  | some encoded =>
      match pyB64Decode encoded with
      | none => (st, .loadFailed)
      | some bytes =>
          match utf8Decode bytes with
          | none => (st, .loadFailed)
          | some serialized =>
              let r := deserialize_data serialized st
              (r.1, if r.2 then .loaded else .loadFailed)

/-! ## `delete_selected_module` (lines 734-757) -/

/-- Python `del d[k]` on the association list (the key is unique in a
dictionary, so the first binding is the binding). -/
def eraseKeyFirst : List (String × α) → String → List (String × α)
  | [], _ => []
  | p :: rest, k => if p.1 = k then rest else p :: eraseKeyFirst rest k

/-- The outcomes of `delete_selected_module`. -/
inductive DeleteOutcome where
  | notFound
  | rejected
  | deleted
deriving DecidableEq

/-- `delete_selected_module` on the state, given the selected module
name: silently return when the name is unknown; reject (before any
mutation) when an instance references the module; otherwise remove the
module's binding. -/
def delete_selected_module (st : ToolState) (module_name : String) :
    ToolState × DeleteOutcome :=
  match alistGet st.modules module_name with
  | none => (st, .notFound)
  | some m =>
      let instances_using := st.instances.filter (fun inst => inst.module_ref == m)
      if !instances_using.isEmpty then (st, .rejected)
      else ({ modules := eraseKeyFirst st.modules module_name,
              instances := st.instances }, .deleted)

/-! ## Theorems -/

/-- C4: For every width string used by the generator when formatting a
port or wire declaration: width `"1"` produces no bracket suffix; a
width containing a colon is wrapped verbatim; a width that parses as
an integer `W > 1` produces `[W-1:0]`; a width that fails integer
parse is emitted bracketed as-is. -/
theorem c4_width_formatting :
    formatWidth "1" = "" ∧
    (∀ w : String, pyContainsChar w ':' = true → formatWidth w = " [" ++ w ++ "]") ∧
    (∀ (w : String) (n : Int), pyContainsChar w ':' = false → pyInt w = some n → 1 < n →
      formatWidth w = " [" ++ toString (n - 1) ++ ":0]") ∧
    (∀ w : String, pyContainsChar w ':' = false → pyInt w = none →
      formatWidth w = " [" ++ w ++ "]") := by
  refine ⟨rfl, ?_, ?_, ?_⟩
  · intro w h
    have hw : w ≠ "1" := by
      rintro rfl
      exact absurd h (by decide)
    simp [formatWidth, hw, h]
  · intro w n hc hp hn
    have hw : w ≠ "1" := by
      rintro rfl
      rw [show pyInt "1" = some 1 from by decide] at hp
      simp only [Option.some.injEq] at hp
      omega
    simp [formatWidth, hw, hc, hp, hn]
  · intro w hc hp
    have hw : w ≠ "1" := by
      rintro rfl
      rw [show pyInt "1" = some 1 from by decide] at hp
      exact Option.noConfusion hp
    simp [formatWidth, hw, hc, hp]

/-- Witness for C4 at the widths named by the claim. -/
theorem c4_width_formatting_witness :
    pyContainsChar "15:8" ':' = true ∧
    formatWidth "15:8" = " [15:8]" ∧
    pyContainsChar "8" ':' = false ∧ pyInt "8" = some 8 ∧
    formatWidth "8" = " [7:0]" ∧
    pyContainsChar "abc" ':' = false ∧ pyInt "abc" = none ∧
    formatWidth "abc" = " [abc]" ∧
    formatWidth "1" = "" :=
  ⟨by decide, c4_width_formatting.2.1 "15:8" (by decide),
   by decide, by decide, c4_width_formatting.2.2.1 "8" 8 (by decide) (by decide) (by decide),
   by decide, by decide, c4_width_formatting.2.2.2 "abc" (by decide) (by decide),
   c4_width_formatting.1⟩

/-- C10: `generate_top_module` is a pure reader of its inputs: the
state after the call equals the state before it, component by
component — every instance's connection and parameter-override
mappings and every referenced module's name, ports, parameters and
macros are untouched. -/
theorem c10_generator_reads_only (st : ToolState) (top : String) :
    (generate_top_module_call st top).2 = st ∧
    (generate_top_module_call st top).2.instances.map (·.connections) =
      st.instances.map (·.connections) ∧
    (generate_top_module_call st top).2.instances.map (·.parameter_values) =
      st.instances.map (·.parameter_values) ∧
    (generate_top_module_call st top).2.instances.map (·.module_ref.name) =
      st.instances.map (·.module_ref.name) ∧
    (generate_top_module_call st top).2.instances.map (·.module_ref.ports) =
      st.instances.map (·.module_ref.ports) ∧
    (generate_top_module_call st top).2.instances.map (·.module_ref.parameters) =
      st.instances.map (·.module_ref.parameters) ∧
    (generate_top_module_call st top).2.instances.map (·.module_ref.macros) =
      st.instances.map (·.module_ref.macros) ∧
    (generate_top_module_call st top).2.modules = st.modules :=
  ⟨rfl, rfl, rfl, rfl, rfl, rfl, rfl, rfl⟩

/-- C5: on an input whose port section yields zero direction-led
matches and one fallback match (the claim's premise), the
direction-led scan is indeed empty and the fallback scan yields a
three-group match — but the shared port loop reads `group(4)`, which
the fallback pattern does not have, so parsing raises `IndexError`
instead of returning the module with a `wire`-direction port that the
claim (and §4.2 of the spec) describes. -/
theorem c5_fallback_raises_group_error :
    finditerDir ("a".data) = [] ∧
    finditerFallback ("a".data) = [⟨[some "a", none, none]⟩] ∧
    portOfMatch ⟨[some "a", none, none]⟩ = .error "no such group" ∧
    parse_verilog_file (.ok "module m(a);") "m.v" = ParseResult.groupError := by
  refine ⟨by decide, by decide, rfl, by decide⟩

/-- C9: an unreadable file yields the `ValueError` outcome carrying
the underlying cause; a readable text in which the module pattern
finds nothing yields exactly the `None` ("no module found") outcome;
the two outcomes are distinct constructors and can never coincide. -/
theorem c9_failure_modes_distinct :
    (∀ e filepath : String,
       parse_verilog_file (.error e) filepath =
         ParseResult.ioFailure ("Error reading file: " ++ e)) ∧
    (∀ content filepath : String,
       searchModule (preprocessText content).1 = none →
       parse_verilog_file (.ok content) filepath = ParseResult.noModule) ∧
    (∀ msg : String, ParseResult.ioFailure msg ≠ ParseResult.noModule) := by
  refine ⟨fun e fp => rfl, ?_, fun msg h => ParseResult.noConfusion h⟩
  intro content filepath h
  simp [parse_verilog_file, parse_verilog_content, h]

/-- Witness for C9: a failing read, and a readable text without a
module header. -/
theorem c9_failure_modes_distinct_witness :
    parse_verilog_file (.error "boom") "f.v" =
      ParseResult.ioFailure ("Error reading file: " ++ "boom") ∧
    searchModule (preprocessText "hello").1 = none ∧
    parse_verilog_file (.ok "hello") "f.v" = ParseResult.noModule :=
  ⟨c9_failure_modes_distinct.1 "boom" "f.v", by decide,
   c9_failure_modes_distinct.2.1 "hello" "f.v" (by decide)⟩

/-- `filterMap` through `Option.toList`. -/
theorem filterMap_eq_flatMap_toList {α β : Type} (g : α → Option β) (l : List α) :
    l.filterMap g = l.flatMap (fun x => (g x).toList) := by
  induction l with
  | nil => rfl
  | cons x xs ih => cases hx : g x <;> simp [List.filterMap_cons, hx, ih]

/-- A left fold whose step appends a per-element chunk is the
accumulator followed by the concatenation of the chunks. -/
theorem foldl_append_step {α β : Type} (h : α → List β) (f : List β → α → List β)
    (hf : ∀ a x, f a x = a ++ h x) (l : List α) (acc : List β) :
    l.foldl f acc = acc ++ l.flatMap h := by
  induction l generalizing acc with
  | nil => simp
  | cons x xs ih => simp [hf, ih, List.append_assoc]

/-- One iteration of the top-level-port loop appends exactly the
declaration the spec's filter describes. -/
theorem topPortStep_eq (inst : ModuleInstance) (acc : List String)
    (e : String × (String × String)) :
    topPortStep inst acc e = acc ++ (topPortDeclSpec inst e).toList := by
  unfold topPortStep topPortDeclSpec
  rcases hpi : get_port_info inst e.1 with _ | pi
  · simp [hpi]
  · by_cases hs : e.2.2 = ""
    · simp [hpi, hs]
    · by_cases h1 : e.2.1 = "input" ∧ pi.direction = "input"
      · simp [hpi, hs, h1, h1.2]
      · by_cases h2 : e.2.1 = "output" ∧ pi.direction = "output"
        · simp [hpi, hs, h1, h2, h2.2]
        · simp [hpi, hs, h1, h2]

/-- C3: the generator emits a top-level port declaration exactly for
the (instance, port, connection) triples whose connection kind equals
the referenced port's direction (both `input` or both `output`) with a
nonempty signal name — mismatches are silently skipped — in instance
order and then in the order of the ports in each instance's connection
mapping, with no deduplication: the emitted list is literally the
concatenation, over all instances, of each instance's filtered
connection entries. -/
theorem c3_top_port_synthesis (instances : List ModuleInstance) :
    genTopPorts instances = genTopPortsSpec instances ∧
    genTopPortsSpec instances =
      instances.flatMap (fun inst =>
        inst.connections.flatMap (fun e => (topPortDeclSpec inst e).toList)) := by
  constructor
  · unfold genTopPorts genTopPortsSpec
    rw [foldl_append_step (fun inst => inst.connections.filterMap (topPortDeclSpec inst))]
    · simp
    · intro a inst
      rw [foldl_append_step (fun e => (topPortDeclSpec inst e).toList)
          (topPortStep inst) (topPortStep_eq inst)]
      rw [filterMap_eq_flatMap_toList]
  · unfold genTopPortsSpec
    simp [filterMap_eq_flatMap_toList]

/-- A key outside the mapped keys has no binding. -/
theorem alistGet_eq_none_of_not_mem {α : Type} (l : List (String × α)) (k : String)
    (h : k ∉ l.map Prod.fst) : alistGet l k = none := by
  induction l with
  | nil => rfl
  | cons p rest ih =>
      simp only [List.map_cons, List.mem_cons] at h
      push_neg at h
      by_cases hp : p.1 = k
      · exact absurd hp.symm h.1
      · simp [alistGet, hp, ih h.2]

/-- After deleting a key from a mapping with distinct keys, the key
has no binding. -/
theorem alistGet_eraseKeyFirst_self {α : Type} (l : List (String × α)) (k : String)
    (h : (l.map Prod.fst).Nodup) : alistGet (eraseKeyFirst l k) k = none := by
  induction l with
  | nil => rfl
  | cons p rest ih =>
      simp only [List.map_cons, List.nodup_cons] at h
      by_cases hp : p.1 = k
      · simpa [eraseKeyFirst, hp] using alistGet_eq_none_of_not_mem rest k (hp ▸ h.1)
      · simp [eraseKeyFirst, hp, alistGet, ih h.2]

/-- Deleting one key leaves the bindings of every other key in
place. -/
theorem alistGet_eraseKeyFirst_ne {α : Type} (l : List (String × α)) (k k' : String)
    (h : k' ≠ k) : alistGet (eraseKeyFirst l k) k' = alistGet l k' := by
  induction l with
  | nil => rfl
  | cons p rest ih =>
      by_cases hp : p.1 = k
      · have hne : p.1 ≠ k' := fun he => h (he.symm.trans hp)
        simp [eraseKeyFirst, hp, alistGet, hne, Ne.symm h]
      · simp only [eraseKeyFirst, if_neg hp]
        by_cases hp' : p.1 = k'
        · simp [alistGet, hp']
        · simp [alistGet, hp', ih]

/-- C8: deleting a module that at least one instance references is
rejected with the whole registry unchanged; deleting a module no
instance references succeeds, removes exactly that module's binding,
and leaves every other module and all instances unchanged. -/
theorem c8_delete_module (st : ToolState) (module_name : String) (m : VerilogModule)
    (hfound : alistGet st.modules module_name = some m)
    (hnodup : (st.modules.map Prod.fst).Nodup) :
    ((∃ inst ∈ st.instances, inst.module_ref = m) →
      delete_selected_module st module_name = (st, .rejected)) ∧
    ((∀ inst ∈ st.instances, inst.module_ref ≠ m) →
      (delete_selected_module st module_name).2 = .deleted ∧
      (delete_selected_module st module_name).1.instances = st.instances ∧
      alistGet (delete_selected_module st module_name).1.modules module_name = none ∧
      ∀ n, n ≠ module_name →
        alistGet (delete_selected_module st module_name).1.modules n =
          alistGet st.modules n) := by
  constructor
  · rintro ⟨inst, hmem, heq⟩
    have hne : st.instances.filter (fun i => i.module_ref == m) ≠ [] :=
      List.ne_nil_of_mem (List.mem_filter.mpr ⟨hmem, by simp [heq]⟩)
    unfold delete_selected_module
    rw [hfound]
    simp only [List.isEmpty_iff]
    simp [hne]
  · intro hnone
    have hfilter : st.instances.filter (fun i => i.module_ref == m) = [] := by
      rw [List.filter_eq_nil_iff]
      intro a ha
      simp [hnone a ha]
    unfold delete_selected_module
    rw [hfound]
    simp only [hfilter, List.isEmpty_nil, Bool.not_true]
    refine ⟨rfl, rfl, alistGet_eraseKeyFirst_self _ _ hnodup, ?_⟩
    intro n hn
    exact alistGet_eraseKeyFirst_ne _ _ _ hn

/-! ## Concrete sample data for witnesses -/

/-- A sample parsed module. -/
def sampleModule : VerilogModule :=
  { name := "counter", filepath := "counter.v",
    ports := [{ name := "clk", direction := "input", dtype := "wire", width := "1",
                dimensions := [] },
              { name := "count", direction := "output", dtype := "wire", width := "8",
                dimensions := [] }],
    parameters := [{ name := "W", value := "8", type := some "int" }],
    macros := [("M", "3")] }

/-- A sample instance of `sampleModule`. -/
def sampleInstance : ModuleInstance :=
  { module_ref := sampleModule, instance_name := "u_counter",
    connections := [("clk", ("input", "sysclk")), ("count", ("output", "cnt_out"))],
    parameter_values := [("W", "16")] }

/-- A sample registry holding the module and one instance of it. -/
def sampleState : ToolState :=
  { modules := [("counter", sampleModule)], instances := [sampleInstance] }

/-- The same registry without the instance. -/
def sampleStateNoInst : ToolState :=
  { modules := [("counter", sampleModule)], instances := [] }

/-- Witness for C8: the referenced module cannot be deleted; the
unreferenced one is removed. -/
theorem c8_delete_module_witness :
    alistGet sampleState.modules "counter" = some sampleModule ∧
    (sampleState.modules.map Prod.fst).Nodup ∧
    (∃ inst ∈ sampleState.instances, inst.module_ref = sampleModule) ∧
    delete_selected_module sampleState "counter" = (sampleState, .rejected) ∧
    (∀ inst ∈ sampleStateNoInst.instances, inst.module_ref ≠ sampleModule) ∧
    (delete_selected_module sampleStateNoInst "counter").2 = .deleted ∧
    alistGet (delete_selected_module sampleStateNoInst "counter").1.modules "counter" =
      none :=
  ⟨by decide, by decide, ⟨sampleInstance, by decide, by decide⟩,
   (c8_delete_module sampleState "counter" sampleModule (by decide) (by decide)).1
     ⟨sampleInstance, by decide, by decide⟩,
   by decide,
   ((c8_delete_module sampleStateNoInst "counter" sampleModule (by decide) (by decide)).2
     (by decide)).1,
   ((c8_delete_module sampleStateNoInst "counter" sampleModule (by decide) (by decide)).2
     (by decide)).2.2.1⟩

/-- Dictionary assignment, observed through lookup. -/
theorem alistGet_insertOverwrite {α : Type} (l : List (String × α)) (p : String × α)
    (k : String) :
    alistGet (insertOverwrite l p) k = if p.1 = k then some p.2 else alistGet l k := by
  induction l with
  | nil => rfl
  | cons q rest ih =>
      simp only [insertOverwrite]
      by_cases hq : q.1 = p.1
      · simp only [if_pos hq, alistGet]
        by_cases hk : p.1 = k
        · simp [hk]
        · have hqk : ¬q.1 = k := fun h => hk (hq.symm.trans h)
          simp [hk, alistGet, hqk]
      · simp only [if_neg hq, alistGet]
        by_cases hqk : q.1 = k
        · have hpk : ¬p.1 = k := fun h => hq (hqk.trans h.symm)
          simp [hqk, hpk]
        · simp [hqk, ih]

/-- Folding assignments into a dictionary: the lookup of a key is the
value of its last assignment. -/
theorem alistGet_foldl_insertOverwrite {α : Type} (l : List (String × α))
    (acc : List (String × α)) (k : String) :
    alistGet (l.foldl insertOverwrite acc) k =
      l.foldl (fun a p => if p.1 = k then some p.2 else a) (alistGet acc k) := by
  induction l generalizing acc with
  | nil => rfl
  | cons p rest ih =>
      simp only [List.foldl_cons]
      rw [ih, alistGet_insertOverwrite]

/-- C6: macro substitution happens on the whole text before port
extraction — a width written through a macro reference surfaces as the
substituted text in the extracted port — and the macro mapping has
overwrite semantics: for every input text and macro name, the value
the mapping holds (and therefore the one substituted) is that of the
last definition scanned, and the concrete two-definition text yields
the later value `8` in the extracted width. -/
theorem c6_macro_substitution :
    (∀ (content : List Char) (name : String),
       alistGet ((scanDefines content).foldl insertOverwrite []) name =
         (scanDefines content).foldl
           (fun acc p => if p.1 = name then some p.2 else acc) none) ∧
    parse_verilog_content "`define W 8\nmodule m(input [`W:0] x);\n" "f.v" =
      .parsed { name := "m", filepath := "f.v",
                ports := [{ name := "x", direction := "input", dtype := "wire",
                            width := "8:0", dimensions := [] }],
                parameters := [], macros := [("W", "8")] } ∧
    scanDefines ("`define W 4\n`define W 8\nmodule m;\n".data) =
      [("W", "4"), ("W", "8")] ∧
    parse_verilog_content "`define W 4\n`define W 8\nmodule m(input [`W:0] x);\n" "f.v" =
      .parsed { name := "m", filepath := "f.v",
                ports := [{ name := "x", direction := "input", dtype := "wire",
                            width := "8:0", dimensions := [] }],
                parameters := [], macros := [("W", "8")] } := by
  refine ⟨?_, by decide, by decide, by decide⟩
  intro content name
  simpa using alistGet_foldl_insertOverwrite (scanDefines content) [] name

/-! ## Line structure of the saved text (for C2) -/

/-- Split a character list at newlines (the list of lines). -/
def splitOnNl : List Char → List (List Char)
  | [] => [[]]
  | c :: rest =>
      if c = '\n' then [] :: splitOnNl rest
      else
        match splitOnNl rest with
        | h :: t => (c :: h) :: t
        | [] => [[c]]

/-- Splitting always yields at least one line. -/
theorem splitOnNl_ne_nil (l : List Char) : splitOnNl l ≠ [] := by
  cases l with
  | nil => simp [splitOnNl]
  | cons c rest =>
      unfold splitOnNl
      by_cases hc : c = '\n'
      · simp [hc]
      · simp only [if_neg hc]
        cases splitOnNl rest <;> simp

/-- A newline-free list is a single line. -/
theorem splitOnNl_no_nl (l : List Char) (h : ∀ c ∈ l, c ≠ '\n') : splitOnNl l = [l] := by
  induction l with
  | nil => rfl
  | cons c rest ih =>
      have hc : c ≠ '\n' := h c (List.mem_cons_self c rest)
      unfold splitOnNl
      simp only [if_neg hc]
      rw [ih (fun x hx => h x (List.mem_cons_of_mem c hx))]

/-- A list containing a newline splits into at least two lines. -/
theorem two_le_length_splitOnNl (l : List Char) (h : '\n' ∈ l) :
    2 ≤ (splitOnNl l).length := by
  induction l with
  | nil => cases h
  | cons c rest ih =>
      unfold splitOnNl
      by_cases hc : c = '\n'
      · have h1 : 0 < (splitOnNl rest).length :=
          List.length_pos.mpr (splitOnNl_ne_nil rest)
        simp only [if_pos hc, List.length_cons]
        omega
      · have hr : '\n' ∈ rest := by
          cases h with
          | head => exact absurd rfl hc
          | tail _ h' => exact h'
        simp only [if_neg hc]
        cases hsp : splitOnNl rest with
        | nil => exact absurd hsp (splitOnNl_ne_nil rest)
        | cons x t =>
            have h2 := ih hr
            rw [hsp] at h2
            simpa using h2

/-- Splitting a list that starts with a newline. -/
theorem splitOnNl_cons_nl (rest : List Char) :
    splitOnNl ('\n' :: rest) = [] :: splitOnNl rest := by
  simp [splitOnNl]

/-- The last line of `a ++ '\n' :: b` is the last line of `b`. -/
theorem getLast?_splitOnNl_append (a b : List Char) :
    (splitOnNl (a ++ '\n' :: b)).getLast? = (splitOnNl b).getLast? := by
  induction a with
  | nil =>
      rw [List.nil_append, splitOnNl_cons_nl]
      cases hsp : splitOnNl b with
      | nil => exact absurd hsp (splitOnNl_ne_nil b)
      | cons x t => rw [List.getLast?_cons_cons]
  | cons c a' ih =>
      by_cases hc : c = '\n'
      · subst hc
        rw [List.cons_append, splitOnNl_cons_nl]
        cases hsp : splitOnNl (a' ++ '\n' :: b) with
        | nil => exact absurd hsp (splitOnNl_ne_nil _)
        | cons x t =>
            rw [List.getLast?_cons_cons]
            rw [hsp] at ih
            exact ih
      · rw [List.cons_append]
        have hstep : splitOnNl (c :: (a' ++ '\n' :: b)) =
            match splitOnNl (a' ++ '\n' :: b) with
            | h :: t => (c :: h) :: t
            | [] => [[c]] := by
          simp only [splitOnNl, if_neg hc]
        cases hsp : splitOnNl (a' ++ '\n' :: b) with
        | nil => exact absurd hsp (splitOnNl_ne_nil _)
        | cons x t =>
            have h2 : 2 ≤ (x :: t).length := by
              rw [← hsp]
              exact two_le_length_splitOnNl _ (by simp)
            cases t with
            | nil => simp at h2
            | cons y t' =>
                rw [hstep, hsp]
                change ((c :: x) :: y :: t').getLast? = _
                rw [List.getLast?_cons_cons]
                rw [hsp, List.getLast?_cons_cons] at ih
                exact ih

/-! ## The base64 text is whitespace-free and nonempty (for C2) -/

/-- No base64 alphabet character is whitespace. -/
theorem isSpaceChar_b64Char (n : Nat) : isSpaceChar (b64Char n) = false := by
  unfold b64Char
  split_ifs with h1 h2 h3 h4
  · interval_cases n <;> decide
  · interval_cases n <;> decide
  · interval_cases n <;> decide
  · decide
  · decide

/-- Every character the base64 encoder emits is non-whitespace. -/
theorem b64EncodeList_chars : ∀ (bytes : List Nat), ∀ c ∈ b64EncodeList bytes,
    isSpaceChar c = false
  | [] => by simp [b64EncodeList]
  | [a] => by
      intro c hc
      simp only [b64EncodeList, List.mem_cons, List.not_mem_nil, or_false] at hc
      rcases hc with rfl | rfl | rfl | rfl
      · exact isSpaceChar_b64Char _
      · exact isSpaceChar_b64Char _
      · decide
      · decide
  | [a, b] => by
      intro c hc
      simp only [b64EncodeList, List.mem_cons, List.not_mem_nil, or_false] at hc
      rcases hc with rfl | rfl | rfl | rfl
      · exact isSpaceChar_b64Char _
      · exact isSpaceChar_b64Char _
      · exact isSpaceChar_b64Char _
      · decide
  | a :: b :: c' :: rest => by
      intro c hc
      simp only [b64EncodeList, List.mem_cons] at hc
      rcases hc with rfl | rfl | rfl | rfl | hc
      · exact isSpaceChar_b64Char _
      · exact isSpaceChar_b64Char _
      · exact isSpaceChar_b64Char _
      · exact isSpaceChar_b64Char _
      · exact b64EncodeList_chars rest c hc

/-- The encoder's output is nonempty on nonempty input. -/
theorem b64EncodeList_ne_nil : ∀ (bytes : List Nat), bytes ≠ [] → b64EncodeList bytes ≠ []
  | [], h => absurd rfl h
  | [_], _ => by simp [b64EncodeList]
  | [_, _], _ => by simp [b64EncodeList]
  | _ :: _ :: _ :: _, _ => by simp [b64EncodeList]

/-- One character always encodes to at least one byte. -/
theorem utf8EncodeChar_ne_nil (c : Char) : utf8EncodeChar c ≠ [] := by
  by_cases h1 : c.toNat < 0x80 <;> by_cases h2 : c.toNat < 0x800 <;>
    by_cases h3 : c.toNat < 0x10000 <;> simp [utf8EncodeChar, h1, h2, h3]

/-- The serialized registry text begins with the object opener, so its
character list is nonempty. -/
theorem serialize_data_data_ne_nil (st : ToolState) : (serialize_data st).data ≠ [] := by
  show (jsonDumps (serialize_value st.modules st.instances)).data ≠ []
  unfold serialize_value
  rw [jsonDumps]
  simp only [String.data_append]
  intro h
  rcases List.append_eq_nil.mp h with ⟨h1, _⟩
  rcases List.append_eq_nil.mp h1 with ⟨h2, _⟩
  exact absurd h2 (by decide)

/-- The UTF-8 encoding of a nonempty string is nonempty. -/
theorem utf8Encode_ne_nil (s : String) (h : s.data ≠ []) : utf8Encode s ≠ [] := by
  unfold utf8Encode
  cases hd : s.data with
  | nil => exact absurd hd h
  | cons c rest =>
      simp only [List.flatMap_cons]
      intro hcontra
      exact utf8EncodeChar_ne_nil c (List.append_eq_nil.mp hcontra).1

/-- Occurrence of a contiguous character sequence. -/
def containsSeq (pat : List Char) : List Char → Bool
  | [] => pat.isEmpty
  | c :: rest => pat.isPrefixOf (c :: rest) || containsSeq pat rest

/-- C2 counterexample: the saved text of the empty registry contains
no line (indeed no occurrence at all) of the form the claim's
`// TOOL_DATA: ` marker would require — the source writes and searches
for `// VERILOG_TOOL_DATA: ` instead. -/
theorem c2_marker_counterexample :
    containsSeq ("// TOOL_DATA: ".data) (save_project_text ⟨[], []⟩ "top").data = false ∧
    containsSeq ("// VERILOG_TOOL_DATA: ".data) (save_project_text ⟨[], []⟩ "top").data =
      true := by
  exact ⟨by decide, by decide⟩

/-- C2 (amended: the marker text is `// VERILOG_TOOL_DATA: `, not
`// TOOL_DATA: `): the generated output is followed by a single
trailing line `// VERILOG_TOOL_DATA: <base64>` whose payload is the
base64 encoding of the serialized registry — the payload is nonempty
and whitespace-free, and the saved text's last line is exactly the
marker line — and on opening, a text in which the marker scan finds
nothing is reported as the "no tool data" condition with the registry
untouched, not a crash. -/
theorem c2_tool_data_trailing_line (st : ToolState) (top : String) :
    save_project_text st top =
      generate_top_module st.instances top ++ "\n\n// VERILOG_TOOL_DATA: " ++
        encodedPayload st ∧
    encodedPayload st = ⟨b64EncodeList (utf8Encode (serialize_data st))⟩ ∧
    (encodedPayload st).data ≠ [] ∧
    (∀ c ∈ (encodedPayload st).data, isSpaceChar c = false) ∧
    (splitOnNl (save_project_text st top).data).getLast? =
      some (("// VERILOG_TOOL_DATA: " ++ encodedPayload st).data) ∧
    (∀ (content : String) (st' : ToolState),
       scanToolData content = none → open_project content st' = (st', .noToolData)) := by
  have hchars : ∀ c ∈ (encodedPayload st).data, isSpaceChar c = false :=
    b64EncodeList_chars (utf8Encode (serialize_data st))
  refine ⟨rfl, rfl, ?_, hchars, ?_, ?_⟩
  · exact b64EncodeList_ne_nil _
      (utf8Encode_ne_nil _ (serialize_data_data_ne_nil st))
  · have hlit : ("\n\n// VERILOG_TOOL_DATA: " : String).data =
        '\n' :: '\n' :: ("// VERILOG_TOOL_DATA: " : String).data := by decide
    have hdata : (save_project_text st top).data =
        (generate_top_module st.instances top).data ++
          '\n' :: ('\n' :: (("// VERILOG_TOOL_DATA: " : String).data ++
            (encodedPayload st).data)) := by
      show ((generate_top_module st.instances top ++ "\n\n// VERILOG_TOOL_DATA: ") ++
        encodedPayload st).data = _
      rw [String.data_append, String.data_append, hlit]
      simp
    have hmkline : ∀ c ∈ ("// VERILOG_TOOL_DATA: " : String).data ++
        (encodedPayload st).data, c ≠ '\n' := by
      intro c hc
      rcases List.mem_append.mp hc with h | h
      · exact (show ∀ x ∈ ("// VERILOG_TOOL_DATA: " : String).data, x ≠ '\n' by decide) c h
      · intro heq
        have hs := hchars c h
        rw [heq] at hs
        exact absurd hs (by decide)
    rw [hdata, getLast?_splitOnNl_append]
    have h2 := getLast?_splitOnNl_append []
      (("// VERILOG_TOOL_DATA: " : String).data ++ (encodedPayload st).data)
    rw [List.nil_append] at h2
    rw [h2, splitOnNl_no_nl _ hmkline, String.data_append]
    rfl
  · intro content st' h
    simp [open_project, h]

/-- Witness for C2: the scan-miss branch at a concrete text without
the marker. -/
theorem c2_tool_data_trailing_line_witness :
    scanToolData "hello" = none ∧
    open_project "hello" sampleState = (sampleState, .noToolData) :=
  ⟨by decide,
   (c2_tool_data_trailing_line sampleState "top").2.2.2.2.2 "hello" sampleState
     (by decide)⟩

/-- Decoding a data character of the alphabet recovers its 6-bit
value. -/
theorem b64Val_b64Char (n : Nat) (h : n < 64) : b64Val (b64Char n) = n := by
  interval_cases n <;> decide

/-- Alphabet characters are data (not padding), ASCII, and accepted by
the retain filter. -/
theorem b64Char_props (n : Nat) (h : n < 64) :
    isB64AlphaChar (b64Char n) = true ∧ b64Char n ≠ '=' ∧ (b64Char n).toNat < 128 := by
  interval_cases n <;> exact ⟨by decide, by decide, by decide⟩

/-- Decoding the encoder's output recovers the bytes. -/
theorem b64DecodeToks_encode : ∀ (bytes : List Nat), (∀ b ∈ bytes, b < 256) →
    b64DecodeToks (b64EncodeList bytes) = some bytes
  | [], _ => rfl
  | [a], h => by
      have ha : a < 256 := h a (by simp)
      have h1 := (b64Char_props (a / 4) (by omega)).2.1
      have h2 := (b64Char_props (a % 4 * 16) (by omega)).2.1
      simp only [b64EncodeList, b64DecodeToks, if_neg h1, if_neg h2, List.head?_cons,
        if_pos rfl]
      rw [b64Val_b64Char _ (by omega), b64Val_b64Char _ (by omega)]
      simp only [if_true, Option.some.injEq, List.cons.injEq, and_true]
      omega
  | [a, b], h => by
      have ha : a < 256 := h a (by simp)
      have hb : b < 256 := h b (by simp)
      have h1 := (b64Char_props (a / 4) (by omega)).2.1
      have h2 := (b64Char_props (a % 4 * 16 + b / 16) (by omega)).2.1
      have h3 := (b64Char_props (b % 16 * 4) (by omega)).2.1
      simp only [b64EncodeList, b64DecodeToks, if_neg h1, if_neg h2, if_neg h3, if_pos rfl]
      rw [b64Val_b64Char _ (by omega), b64Val_b64Char _ (by omega),
        b64Val_b64Char _ (by omega)]
      simp only [if_true, Option.some.injEq, List.cons.injEq, and_true]
      exact ⟨by omega, by omega⟩
  | a :: b :: c :: rest, h => by
      have ha : a < 256 := h a (by simp)
      have hb : b < 256 := h b (by simp)
      have hc : c < 256 := h c (by simp)
      have h1 := (b64Char_props (a / 4) (by omega)).2.1
      have h2 := (b64Char_props (a % 4 * 16 + b / 16) (by omega)).2.1
      have h3 := (b64Char_props (b % 16 * 4 + c / 64) (by omega)).2.1
      have h4 := (b64Char_props (c % 64) (by omega)).2.1
      have hrest := b64DecodeToks_encode rest (fun x hx => h x (by simp [hx]))
      simp only [b64EncodeList, b64DecodeToks, if_neg h1, if_neg h2, if_neg h3, if_neg h4,
        hrest, Option.map_some]
      rw [b64Val_b64Char _ (by omega), b64Val_b64Char _ (by omega),
        b64Val_b64Char _ (by omega), b64Val_b64Char _ (by omega)]
      simp only [Option.map_some', Option.some.injEq, List.cons.injEq, and_true, true_and]
      refine ⟨by omega, by omega, by omega⟩

/-- Every character the encoder emits is retained by the filter and is
ASCII. -/
theorem b64EncodeList_char_props : ∀ (bytes : List Nat), (∀ b ∈ bytes, b < 256) →
    ∀ c ∈ b64EncodeList bytes, (isB64AlphaChar c || c = '=') = true ∧ c.toNat < 128
  | [], _ => by simp [b64EncodeList]
  | [a], h => by
      have ha : a < 256 := h a (by simp)
      intro c hc
      simp only [b64EncodeList, List.mem_cons, List.not_mem_nil, or_false] at hc
      rcases hc with rfl | rfl | rfl | rfl
      · exact ⟨by simp [(b64Char_props (a / 4) (by omega)).1],
               (b64Char_props (a / 4) (by omega)).2.2⟩
      · exact ⟨by simp [(b64Char_props (a % 4 * 16) (by omega)).1],
               (b64Char_props (a % 4 * 16) (by omega)).2.2⟩
      · exact ⟨by decide, by decide⟩
      · exact ⟨by decide, by decide⟩
  | [a, b], h => by
      have ha : a < 256 := h a (by simp)
      have hb : b < 256 := h b (by simp)
      intro c hc
      simp only [b64EncodeList, List.mem_cons, List.not_mem_nil, or_false] at hc
      rcases hc with rfl | rfl | rfl | rfl
      · exact ⟨by simp [(b64Char_props (a / 4) (by omega)).1],
               (b64Char_props (a / 4) (by omega)).2.2⟩
      · exact ⟨by simp [(b64Char_props (a % 4 * 16 + b / 16) (by omega)).1],
               (b64Char_props (a % 4 * 16 + b / 16) (by omega)).2.2⟩
      · exact ⟨by simp [(b64Char_props (b % 16 * 4) (by omega)).1],
               (b64Char_props (b % 16 * 4) (by omega)).2.2⟩
      · exact ⟨by decide, by decide⟩
  | a :: b :: c' :: rest, h => by
      have ha : a < 256 := h a (by simp)
      have hb : b < 256 := h b (by simp)
      have hc' : c' < 256 := h c' (by simp)
      intro c hc
      simp only [b64EncodeList, List.mem_cons] at hc
      rcases hc with rfl | rfl | rfl | rfl | hc
      · exact ⟨by simp [(b64Char_props (a / 4) (by omega)).1],
               (b64Char_props (a / 4) (by omega)).2.2⟩
      · exact ⟨by simp [(b64Char_props (a % 4 * 16 + b / 16) (by omega)).1],
               (b64Char_props (a % 4 * 16 + b / 16) (by omega)).2.2⟩
      · exact ⟨by simp [(b64Char_props (b % 16 * 4 + c' / 64) (by omega)).1],
               (b64Char_props (b % 16 * 4 + c' / 64) (by omega)).2.2⟩
      · exact ⟨by simp [(b64Char_props (c' % 64) (by omega)).1],
               (b64Char_props (c' % 64) (by omega)).2.2⟩
      · exact b64EncodeList_char_props rest (fun x hx => h x (by simp [hx])) c hc

/-- Python `b64decode` of the encoder's text recovers the bytes. -/
theorem pyB64Decode_encode (bytes : List Nat) (h : ∀ b ∈ bytes, b < 256) :
    pyB64Decode ⟨b64EncodeList bytes⟩ = some bytes := by
  have hprops := b64EncodeList_char_props bytes h
  unfold pyB64Decode
  rw [if_neg, List.filter_eq_self.mpr, b64DecodeToks_encode bytes h]
  · intro c hc
    exact (hprops c hc).1
  · simp only [List.any_eq_true, not_exists]
    push_neg
    intro c hc
    simpa using Nat.not_le.mpr (hprops c hc).2

/-! ## UTF-8 decode inverts encode (for C1) -/

/-- The scalar-value facts carried by every character. -/
theorem char_valid_range (c : Char) :
    c.toNat < 0xd800 ∨ (0xdfff < c.toNat ∧ c.toNat < 0x110000) := by
  have h := c.valid
  simpa [UInt32.isValidChar, Nat.isValidChar] using h

/-- The encoder emits bytes. -/
theorem utf8EncodeChar_lt_256 (c : Char) : ∀ b ∈ utf8EncodeChar c, b < 256 := by
  have hv := char_valid_range c
  intro b hb
  by_cases h1 : c.toNat < 0x80
  · simp only [utf8EncodeChar, if_pos h1, List.mem_singleton] at hb
    omega
  · by_cases h2 : c.toNat < 0x800
    · simp only [utf8EncodeChar, if_neg h1, if_pos h2, List.mem_cons, List.not_mem_nil,
        or_false] at hb
      rcases hb with rfl | rfl <;> omega
    · by_cases h3 : c.toNat < 0x10000
      · simp only [utf8EncodeChar, if_neg h1, if_neg h2, if_pos h3, List.mem_cons,
          List.not_mem_nil, or_false] at hb
        rcases hb with rfl | rfl | rfl <;> omega
      · simp only [utf8EncodeChar, if_neg h1, if_neg h2, if_neg h3, List.mem_cons,
          List.not_mem_nil, or_false] at hb
        rcases hb with rfl | rfl | rfl | rfl <;> omega

/-- All bytes of an encoded string are bytes. -/
theorem utf8Encode_lt_256 (s : String) : ∀ b ∈ utf8Encode s, b < 256 := by
  intro b hb
  unfold utf8Encode at hb
  rcases List.mem_flatMap.mp hb with ⟨c, _, hbc⟩
  exact utf8EncodeChar_lt_256 c b hbc

set_option maxRecDepth 16384 in
/-- Decoding the encoder's output recovers the characters. -/
theorem utf8DecodeAux_encode : ∀ (cs : List Char) (fuel : Nat), cs.length < fuel →
    utf8DecodeAux fuel (cs.flatMap utf8EncodeChar) = some cs := by
  intro cs
  induction cs with
  | nil =>
      intro fuel hf
      cases fuel with
      | zero => omega
      | succ f => rfl
  | cons c rest ih =>
      intro fuel hf
      cases fuel with
      | zero => omega
      | succ f =>
          have hv := char_valid_range c
          have hrec := ih f (by simp at hf ⊢; omega)
          simp only [List.flatMap_cons]
          by_cases h1 : c.toNat < 0x80
          · rw [show utf8EncodeChar c = [c.toNat] from by simp [utf8EncodeChar, h1]]
            simp only [List.cons_append, List.nil_append, List.append_eq, utf8DecodeAux]
            split_ifs <;>
              try (first
                | omega
                | (simp only [Bool.and_eq_true, decide_eq_true_eq] at *; omega))
            all_goals try simp only [Bool.and_eq_true, decide_eq_true_eq] at *
            all_goals rw [hrec, Option.map_some']
            all_goals simp only [Option.some.injEq, List.cons.injEq, and_true]
            all_goals conv_rhs => rw [← Char.ofNat_toNat c]
          · by_cases h2 : c.toNat < 0x800
            · rw [show utf8EncodeChar c =
                  [0xc0 + c.toNat / 64, 0x80 + c.toNat % 64] from by
                simp [utf8EncodeChar, h1, h2]]
              simp only [List.cons_append, List.nil_append, List.append_eq, utf8DecodeAux]
              split_ifs <;>
                try (first
                  | omega
                  | (simp only [Bool.and_eq_true, decide_eq_true_eq] at *; omega))
              all_goals try simp only [Bool.and_eq_true, decide_eq_true_eq] at *
              all_goals rw [hrec, Option.map_some']
              all_goals simp only [Option.some.injEq, List.cons.injEq, and_true]
              all_goals conv_rhs => rw [← Char.ofNat_toNat c]
              all_goals congr 1
              all_goals omega
            · by_cases h3 : c.toNat < 0x10000
              · rw [show utf8EncodeChar c =
                    [0xe0 + c.toNat / 4096, 0x80 + c.toNat / 64 % 64,
                     0x80 + c.toNat % 64] from by simp [utf8EncodeChar, h1, h2, h3]]
                simp only [List.cons_append, List.nil_append, List.append_eq,
                  utf8DecodeAux]
                split_ifs <;>
                  try (first
                    | omega
                    | (simp only [Bool.and_eq_true, decide_eq_true_eq] at *; omega))
                all_goals try simp only [Bool.and_eq_true, decide_eq_true_eq] at *
                all_goals rw [hrec, Option.map_some']
                all_goals simp only [Option.some.injEq, List.cons.injEq, and_true]
                all_goals conv_rhs => rw [← Char.ofNat_toNat c]
                all_goals congr 1
                all_goals omega
              · rw [show utf8EncodeChar c =
                    [0xf0 + c.toNat / 0x40000, 0x80 + c.toNat / 4096 % 64,
                     0x80 + c.toNat / 64 % 64, 0x80 + c.toNat % 64] from by
                  simp [utf8EncodeChar, h1, h2, h3]]
                simp only [List.cons_append, List.nil_append, List.append_eq,
                  utf8DecodeAux]
                split_ifs <;>
                  try (first
                    | omega
                    | (simp only [Bool.and_eq_true, decide_eq_true_eq] at *; omega))
                all_goals try simp only [Bool.and_eq_true, decide_eq_true_eq] at *
                all_goals rw [hrec, Option.map_some']
                all_goals simp only [Option.some.injEq, List.cons.injEq, and_true]
                all_goals conv_rhs => rw [← Char.ofNat_toNat c]
                all_goals congr 1
                all_goals omega

/-- `bytes.decode()` of `s.encode()` gives back `s`. -/
theorem utf8Decode_encode (s : String) : utf8Decode (utf8Encode s) = some s := by
  unfold utf8Decode utf8Encode
  rw [utf8DecodeAux_encode s.data ((s.data.flatMap utf8EncodeChar).length + 1) ?_]
  · rfl
  · have : s.data.length ≤ (s.data.flatMap utf8EncodeChar).length := by
      induction s.data with
      | nil => simp
      | cons c cs ih =>
          simp only [List.flatMap_cons, List.length_append, List.length_cons]
          have := utf8EncodeChar_ne_nil c
          have hpos : 0 < (utf8EncodeChar c).length := List.length_pos.mpr this
          omega
    omega

/-! ## The JSON parser inverts the serializer's output (for C1) -/

/-- Pairwise-distinct keys (the invariant of every Python dict). -/
def keysDistinct : List String → Bool
  | [] => true
  | k :: rest => !rest.contains k && keysDistinct rest

mutual

/-- Values in the serializer's image: no numbers or booleans, and
every object has distinct keys. -/
def jsonSafe : PValue → Bool
  | .null => true
  | .bool _ => false
  | .num _ => false
  | .str _ => true
  | .arr l => jsonSafeList l
  | .obj l => keysDistinct (l.map Prod.fst) && jsonSafeFields l

/-- `jsonSafe` on every array element. -/
def jsonSafeList : List PValue → Bool
  | [] => true
  | v :: rest => jsonSafe v && jsonSafeList rest

/-- `jsonSafe` on every field value. -/
def jsonSafeFields : List (String × PValue) → Bool
  | [] => true
  | kv :: rest => jsonSafe kv.2 && jsonSafeFields rest

end

mutual

/-- Fuel needed by the parser on the dumped text of a value. -/
def jcost : PValue → Nat
  | .null => 1
  | .bool _ => 1
  | .num _ => 1
  | .str _ => 1
  | .arr l => 1 + jcostList l
  | .obj l => 1 + jcostFields l

/-- Fuel needed by the array-items loop. -/
def jcostList : List PValue → Nat
  | [] => 0
  | v :: rest => 1 + jcost v + jcostList rest

/-- Fuel needed by the object-fields loop. -/
def jcostFields : List (String × PValue) → Nat
  | [] => 0
  | kv :: rest => 1 + jcost kv.2 + jcostFields rest

end

/-- Reading a hexadecimal digit back. -/
theorem hexVal_hexDigitChar (d : Nat) (h : d < 16) : hexVal (hexDigitChar d) = some d := by
  interval_cases d <;> decide

/-- Reading four emitted hexadecimal digits recovers the code unit. -/
theorem hex4_uEscape (n : Nat) (h : n < 0x10000) (rest : List Char) :
    hex4 ([hexDigitChar (n / 4096 % 16), hexDigitChar (n / 256 % 16),
           hexDigitChar (n / 16 % 16), hexDigitChar (n % 16)] ++ rest) =
      some (n, rest) := by
  simp only [List.cons_append, List.nil_append, hex4,
    hexVal_hexDigitChar _ (by omega : n / 4096 % 16 < 16),
    hexVal_hexDigitChar _ (by omega : n / 256 % 16 < 16),
    hexVal_hexDigitChar _ (by omega : n / 16 % 16 < 16),
    hexVal_hexDigitChar _ (by omega : n % 16 < 16)]
  congr 2
  omega

/-! ## The string body parser inverts the escaper (for C1) -/

/-- An escaped character is at least one character. -/
theorem jsonEscapeChar_ne_nil (c : Char) : jsonEscapeChar c ≠ [] := by
  unfold jsonEscapeChar
  split_ifs <;> simp [uEscape]

/-- The dumped form of a string body is at least as long as the
body. -/
theorem length_le_flatMap_escape (cs : List Char) :
    cs.length ≤ (cs.flatMap jsonEscapeChar).length := by
  induction cs with
  | nil => simp
  | cons c rest ih =>
      simp only [List.flatMap_cons, List.length_append, List.length_cons]
      have hpos : 0 < (jsonEscapeChar c).length :=
        List.length_pos.mpr (jsonEscapeChar_ne_nil c)
      omega

/-- The step parser consumes one `\uXXXX` escape of a non-surrogate
code unit. -/
theorem jsonParseStringStep_uEscape (k : List Char → Option (List Char × List Char))
    (n : Nat) (h1 : n < 0x10000) (hlo : ¬ (0xd800 ≤ n ∧ n ≤ 0xdfff)) (t : List Char) :
    jsonParseStringStep k (uEscape n ++ t) =
      (k t).map (fun p => (Char.ofNat n :: p.1, p.2)) := by
  rw [show uEscape n ++ t =
      '\\' :: 'u' :: ([hexDigitChar (n / 4096 % 16), hexDigitChar (n / 256 % 16),
        hexDigitChar (n / 16 % 16), hexDigitChar (n % 16)] ++ t) from rfl]
  simp only [jsonParseStringStep]
  rw [if_neg (show ¬ ('\\' : Char) = '"' from by decide)]
  rw [if_pos trivial]
  rw [if_neg (show ¬ ((decide (('u' : Char) = '"') || decide (('u' : Char) = '\\') ||
      decide (('u' : Char) = '/')) = true) from by decide)]
  rw [if_neg (show ¬ ('u' : Char) = 'n' from by decide)]
  rw [if_neg (show ¬ ('u' : Char) = 't' from by decide)]
  rw [if_neg (show ¬ ('u' : Char) = 'r' from by decide)]
  rw [if_neg (show ¬ ('u' : Char) = 'b' from by decide)]
  rw [if_neg (show ¬ ('u' : Char) = 'f' from by decide)]
  rw [if_pos (trivial : True)]
  rw [hex4_uEscape n h1]
  dsimp only
  rw [if_neg (show ¬ ((decide (0xd800 ≤ n) && decide (n ≤ 0xdbff)) = true) from by
    simp only [Bool.and_eq_true, decide_eq_true_eq]; omega)]
  rw [if_neg (show ¬ ((decide (0xdc00 ≤ n) && decide (n ≤ 0xdfff)) = true) from by
    simp only [Bool.and_eq_true, decide_eq_true_eq]; omega)]

/-- The step parser consumes a surrogate pair of `\uXXXX` escapes. -/
theorem jsonParseStringStep_uEscape_pair (k : List Char → Option (List Char × List Char))
    (n m : Nat) (h1 : 0xd800 ≤ n) (h2 : n ≤ 0xdbff) (h3 : 0xdc00 ≤ m) (h4 : m ≤ 0xdfff)
    (t : List Char) :
    jsonParseStringStep k (uEscape n ++ (uEscape m ++ t)) =
      (k t).map (fun p =>
        (Char.ofNat (0x10000 + (n - 0xd800) * 0x400 + (m - 0xdc00)) :: p.1, p.2)) := by
  rw [show uEscape n ++ (uEscape m ++ t) =
      '\\' :: 'u' :: ([hexDigitChar (n / 4096 % 16), hexDigitChar (n / 256 % 16),
        hexDigitChar (n / 16 % 16), hexDigitChar (n % 16)] ++ (uEscape m ++ t)) from rfl]
  simp only [jsonParseStringStep]
  rw [if_neg (show ¬ ('\\' : Char) = '"' from by decide)]
  rw [if_pos trivial]
  rw [if_neg (show ¬ ((decide (('u' : Char) = '"') || decide (('u' : Char) = '\\') ||
      decide (('u' : Char) = '/')) = true) from by decide)]
  rw [if_neg (show ¬ ('u' : Char) = 'n' from by decide)]
  rw [if_neg (show ¬ ('u' : Char) = 't' from by decide)]
  rw [if_neg (show ¬ ('u' : Char) = 'r' from by decide)]
  rw [if_neg (show ¬ ('u' : Char) = 'b' from by decide)]
  rw [if_neg (show ¬ ('u' : Char) = 'f' from by decide)]
  rw [if_pos (trivial : True)]
  rw [hex4_uEscape n (by omega)]
  dsimp only
  rw [if_pos (show (decide (0xd800 ≤ n) && decide (n ≤ 0xdbff)) = true from by
    simp only [Bool.and_eq_true, decide_eq_true_eq]; omega)]
  rw [show uEscape m ++ t =
      '\\' :: 'u' :: ([hexDigitChar (m / 4096 % 16), hexDigitChar (m / 256 % 16),
        hexDigitChar (m / 16 % 16), hexDigitChar (m % 16)] ++ t) from rfl]
  show (match hex4 ([hexDigitChar (m / 4096 % 16), hexDigitChar (m / 256 % 16),
        hexDigitChar (m / 16 % 16), hexDigitChar (m % 16)] ++ t) with
      | some (n2, r5) =>
          if 0xdc00 ≤ n2 && n2 ≤ 0xdfff then
            (k r5).map (fun p => (Char.ofNat (0x10000 + (n - 0xd800) * 0x400 +
                                               (n2 - 0xdc00)) :: p.1, p.2))
          else none
      | none => none) =
    (k t).map (fun p =>
      (Char.ofNat (0x10000 + (n - 0xd800) * 0x400 + (m - 0xdc00)) :: p.1, p.2))
  rw [hex4_uEscape m (by omega)]
  dsimp only
  rw [if_pos (show (decide (0xdc00 ≤ m) && decide (m ≤ 0xdfff)) = true from by
    simp only [Bool.and_eq_true, decide_eq_true_eq]; omega)]

set_option maxRecDepth 16384 in
/-- Parsing the escaped text of a string body up to the closing quote
recovers the body and leaves the rest. -/
theorem jsonParseStringAux_escape : ∀ (cs : List Char) (suffix : List Char) (fuel : Nat),
    cs.length < fuel →
    jsonParseStringAux fuel (cs.flatMap jsonEscapeChar ++ '"' :: suffix) =
      some (cs, suffix) := by
  intro cs
  induction cs with
  | nil =>
      intro suffix fuel hf
      cases fuel with
      | zero => omega
      | succ f => rfl
  | cons c rest ih =>
      intro suffix fuel hf
      cases fuel with
      | zero => omega
      | succ f =>
          have hv := char_valid_range c
          have hrec := ih suffix f (by simp at hf ⊢; omega)
          simp only [List.flatMap_cons, List.append_assoc]
          by_cases hq : c = '"'
          · subst hq
            show (jsonParseStringAux f (rest.flatMap jsonEscapeChar ++ '"' :: suffix)).map
                (fun p => ('"' :: p.1, p.2)) = some ('"' :: rest, suffix)
            rw [hrec]; rfl
          · by_cases hb : c = '\\'
            · subst hb
              show (jsonParseStringAux f (rest.flatMap jsonEscapeChar ++ '"' :: suffix)).map
                  (fun p => ('\\' :: p.1, p.2)) = some ('\\' :: rest, suffix)
              rw [hrec]; rfl
            · by_cases hn : c = '\n'
              · subst hn
                show (jsonParseStringAux f (rest.flatMap jsonEscapeChar ++ '"' :: suffix)).map
                    (fun p => ('\n' :: p.1, p.2)) = some ('\n' :: rest, suffix)
                rw [hrec]; rfl
              · by_cases hr : c = '\r'
                · subst hr
                  show (jsonParseStringAux f (rest.flatMap jsonEscapeChar ++ '"' :: suffix)).map
                      (fun p => ('\r' :: p.1, p.2)) = some ('\r' :: rest, suffix)
                  rw [hrec]; rfl
                · by_cases ht : c = '\t'
                  · subst ht
                    show (jsonParseStringAux f (rest.flatMap jsonEscapeChar ++ '"' :: suffix)).map
                        (fun p => ('\t' :: p.1, p.2)) = some ('\t' :: rest, suffix)
                    rw [hrec]; rfl
                  · by_cases hbs : c = '\x08'
                    · subst hbs
                      show (jsonParseStringAux f (rest.flatMap jsonEscapeChar ++ '"' :: suffix)).map
                          (fun p => ('\x08' :: p.1, p.2)) = some ('\x08' :: rest, suffix)
                      rw [hrec]; rfl
                    · by_cases hff : c = '\x0c'
                      · subst hff
                        show (jsonParseStringAux f (rest.flatMap jsonEscapeChar ++ '"' :: suffix)).map
                            (fun p => ('\x0c' :: p.1, p.2)) = some ('\x0c' :: rest, suffix)
                        rw [hrec]; rfl
                      · by_cases hctl : c.toNat < 0x20 || c.toNat > 0x7e
                        · by_cases hbmp : c.toNat < 0x10000
                          · rw [show jsonEscapeChar c = uEscape c.toNat from by
                              simp [jsonEscapeChar, hq, hb, hn, hr, ht, hbs, hff, hctl, hbmp]]
                            rw [show jsonParseStringAux (f + 1)
                                (uEscape c.toNat ++ (rest.flatMap jsonEscapeChar ++ '"' :: suffix)) =
                              jsonParseStringStep (jsonParseStringAux f)
                                (uEscape c.toNat ++ (rest.flatMap jsonEscapeChar ++ '"' :: suffix))
                              from rfl]
                            rw [jsonParseStringStep_uEscape _ c.toNat hbmp (by omega)]
                            rw [hrec, Option.map_some', Char.ofNat_toNat]
                          · rw [show jsonEscapeChar c =
                                uEscape (0xd800 + (c.toNat - 0x10000) / 0x400) ++
                                uEscape (0xdc00 + (c.toNat - 0x10000) % 0x400) from by
                              simp [jsonEscapeChar, hq, hb, hn, hr, ht, hbs, hff, hctl, hbmp]]
                            simp only [List.append_assoc]
                            rw [show jsonParseStringAux (f + 1)
                                (uEscape (0xd800 + (c.toNat - 0x10000) / 0x400) ++
                                  (uEscape (0xdc00 + (c.toNat - 0x10000) % 0x400) ++
                                    (rest.flatMap jsonEscapeChar ++ '"' :: suffix))) =
                              jsonParseStringStep (jsonParseStringAux f)
                                (uEscape (0xd800 + (c.toNat - 0x10000) / 0x400) ++
                                  (uEscape (0xdc00 + (c.toNat - 0x10000) % 0x400) ++
                                    (rest.flatMap jsonEscapeChar ++ '"' :: suffix)))
                              from rfl]
                            rw [jsonParseStringStep_uEscape_pair _ _ _
                              (by omega) (by omega) (by omega) (by omega)]
                            rw [hrec, Option.map_some']
                            rw [show 0x10000 +
                                  (0xd800 + (c.toNat - 0x10000) / 0x400 - 0xd800) * 0x400 +
                                  (0xdc00 + (c.toNat - 0x10000) % 0x400 - 0xdc00) = c.toNat
                                from by omega,
                              Char.ofNat_toNat]
                        · rw [show jsonEscapeChar c = [c] from by
                            simp [jsonEscapeChar, hq, hb, hn, hr, ht, hbs, hff, hctl]]
                          simp only [List.cons_append, List.nil_append]
                          rw [show jsonParseStringAux (f + 1)
                                (c :: (rest.flatMap jsonEscapeChar ++ '"' :: suffix)) =
                              jsonParseStringStep (jsonParseStringAux f)
                                (c :: (rest.flatMap jsonEscapeChar ++ '"' :: suffix)) from rfl]
                          simp only [jsonParseStringStep]
                          rw [if_neg hq, if_neg hb]
                          simp only [Bool.or_eq_true, decide_eq_true_eq, not_or, Nat.not_lt] at hctl
                          rw [if_neg (by omega)]
                          rw [hrec, Option.map_some']

/-! ## Round trip of the serialized registry (for C1) -/

/-- The components of an instance the round trip is compared on: the
instance name, the referenced module's name, the connection mapping
(kind and signal), and the parameter overrides. -/
def instKey (inst : ModuleInstance) :
    String × String × List (String × (String × String)) × List (String × String) :=
  (inst.instance_name, inst.module_ref.name, inst.connections, inst.parameter_values)

/-- Deserializing a list of serialized values elementwise inverts a
serializer with an elementwise inverse. -/
theorem mapM_of_inverse {α β : Type} (f : β → Option α) (g : α → β)
    (h : ∀ x, f (g x) = some x) (l : List α) : mapMOpt f (l.map g) = some l := by
  induction l with
  | nil => rfl
  | cons x xs ih => simp [mapMOpt, h, ih]

/-- A serialized port deserializes to itself. -/
theorem portFromP_portToP (p : Port) : portFromP (portToP p) = some p := by
  rcases p with ⟨nm, dir, dt, w, dims⟩
  simp [portToP, portFromP, alistGet, pFromStr,
    mapM_of_inverse pFromStr PValue.str (fun _ => rfl)]

/-- A serialized parameter deserializes to itself. -/
theorem paramFromP_paramToP (p : Parameter) : paramFromP (paramToP p) = some p := by
  rcases p with ⟨nm, v, ty⟩
  cases ty <;> simp [paramToP, paramFromP, alistGet, pFromStr]

/-- A serialized string mapping deserializes to itself. -/
theorem strMapFromP_toP (l : List (String × String)) :
    strMapFromP (.obj (l.map (fun kv => (kv.1, PValue.str kv.2)))) = some l := by
  unfold strMapFromP
  induction l with
  | nil => rfl
  | cons kv rest ih => simpa [mapMOpt, pFromStr] using ih

/-- A serialized connection mapping deserializes to itself. -/
theorem connsFromP_toP (l : List (String × (String × String))) :
    connsFromP (.obj (l.map (fun kv => (kv.1, PValue.arr [.str kv.2.1, .str kv.2.2])))) =
      some l := by
  unfold connsFromP
  induction l with
  | nil => rfl
  | cons kv rest ih => simpa [mapMOpt] using ih

/-- A serialized module deserializes to itself, the mapping key
becoming the name. -/
theorem moduleFromP_moduleToP (k : String) (m : VerilogModule) :
    moduleFromP k (moduleToP m) = some { m with name := k } := by
  rcases m with ⟨nm, fp, ports, params, macs⟩
  simp [moduleToP, moduleFromP, alistGet,  pFromStr,
    mapM_of_inverse portFromP portToP portFromP_portToP,
    mapM_of_inverse paramFromP paramToP paramFromP_paramToP,
    strMapFromP_toP]

/-- Assigning a fresh key appends the binding. -/
theorem insertOverwrite_of_not_mem {α : Type} (l : List (String × α)) (p : String × α)
    (h : p.1 ∉ l.map Prod.fst) : insertOverwrite l p = l ++ [p] := by
  induction l with
  | nil => rfl
  | cons q rest ih =>
      simp only [List.map_cons, List.mem_cons] at h
      push_neg at h
      simp only [insertOverwrite, if_neg (fun he : q.1 = p.1 => h.1 he.symm),
        List.cons_append]
      rw [ih h.2]

/-- Folding assignments of pairwise-distinct fresh keys appends them
in order. -/
theorem foldl_insertOverwrite_fresh {α : Type} (M : List (String × α)) :
    ∀ acc : List (String × α), (M.map Prod.fst).Nodup →
    (∀ k ∈ M.map Prod.fst, k ∉ acc.map Prod.fst) →
    M.foldl insertOverwrite acc = acc ++ M := by
  induction M with
  | nil => intro acc _ _; simp
  | cons p rest ih =>
      intro acc hnodup hfresh
      simp only [List.map_cons, List.nodup_cons] at hnodup
      simp only [List.foldl_cons]
      rw [insertOverwrite_of_not_mem acc p (hfresh p.1 (by simp))]
      rw [ih (acc ++ [p]) hnodup.2]
      · simp
      · intro k hk
        simp only [List.map_append, List.mem_append]
        push_neg
        refine ⟨hfresh k (by simp [hk]), ?_⟩
        simp only [List.map_cons, List.map_nil, List.mem_singleton]
        exact fun he => hnodup.1 (he ▸ hk)

/-- The module loop over the serializer's output rebuilds the module
mapping. -/
theorem loadModules_toP (M : List (String × VerilogModule))
    (hnames : ∀ p ∈ M, p.2.name = p.1) :
    ∀ acc, loadModules (M.map (fun nm => (nm.1, moduleToP nm.2))) acc =
      .ok (M.foldl insertOverwrite acc) := by
  induction M with
  | nil => intro acc; rfl
  | cons p rest ih =>
      intro acc
      have hname : p.2.name = p.1 := hnames p (by simp)
      have hmod : moduleFromP p.1 (moduleToP p.2) = some p.2 := by
        rw [moduleFromP_moduleToP]
        congr 1
        rcases p with ⟨k, m⟩
        rcases m with ⟨nm, fp, ports, params, macs⟩
        simp only at hname
        simp [hname]
      simp only [List.map_cons, loadModules, hmod, List.foldl_cons]
      exact ih (fun q hq => hnames q (by simp [hq])) _

/-- A successful lookup is a binding of the list. -/
theorem alistGet_mem {α : Type} (l : List (String × α)) (k : String) (v : α)
    (h : alistGet l k = some v) : (k, v) ∈ l := by
  induction l with
  | nil => cases h
  | cons p rest ih =>
      by_cases hp : p.1 = k
      · simp only [alistGet, if_pos hp] at h
        cases h
        have hpk : p = (k, p.2) := by
          rcases p with ⟨a, b⟩
          simp only at hp
          rw [hp]
        rw [← hpk]
        exact List.mem_cons_self _ _
      · simp only [alistGet, if_neg hp] at h
        exact List.mem_cons_of_mem p (ih h)

/-- The instance loop over the serializer's output rebuilds every
instance, referencing the rebuilt module of the recorded name, with
the instance name, connection mapping and parameter overrides
intact. -/
theorem loadInstances_toP (M : List (String × VerilogModule)) (I : List ModuleInstance)
    (hres : ∀ inst ∈ I, ∃ m', alistGet M inst.module_ref.name = some m' ∧
      m'.name = inst.module_ref.name) :
    ∀ acc, ∃ I', loadInstances M (I.map instToP) acc = .ok I' ∧
      I'.map instKey = acc.map instKey ++ I.map instKey := by
  induction I with
  | nil => intro acc; exact ⟨acc, rfl, by simp⟩
  | cons inst rest ih =>
      intro acc
      obtain ⟨m', hm', hmname⟩ := hres inst (by simp)
      have hstep : instFromP M (instToP inst) =
          .ok (some { module_ref := m', instance_name := inst.instance_name,
                      connections := inst.connections,
                      parameter_values := inst.parameter_values }) := by
        simp [instToP, instFromP, alistGet, hm', connsFromP_toP, strMapFromP_toP]
      obtain ⟨I', hI', hkeys⟩ :=
        ih (fun i hi => hres i (by simp [hi]))
           (acc ++ [{ module_ref := m', instance_name := inst.instance_name,
                      connections := inst.connections,
                      parameter_values := inst.parameter_values }])
      refine ⟨I', ?_, ?_⟩
      · simpa [List.map_cons, loadInstances, hstep] using hI'
      · rw [hkeys]
        simp [instKey, hmname]

/-! ## The JSON value parser inverts `json.dumps` (for C1) -/

/-- Whitespace characters are dropped one at a time. -/
theorem jsonSkipWs_cons_ws (c : Char)
    (h : (c = ' ' || c = '\t' || c = '\n' || c = '\r') = true) (l : List Char) :
    jsonSkipWs (c :: l) = jsonSkipWs l := by
  simp only [jsonSkipWs, List.dropWhile_cons]
  rw [if_pos h]

/-- A non-whitespace head stops the whitespace skipper. -/
theorem jsonSkipWs_cons_no_ws (c : Char)
    (h : (c = ' ' || c = '\t' || c = '\n' || c = '\r') = false) (l : List Char) :
    jsonSkipWs (c :: l) = c :: l := by
  simp only [jsonSkipWs, List.dropWhile_cons]
  rw [if_neg (by simp [h])]

/-- The value parser ignores one leading whitespace character. -/
theorem jsonParseValue_ws_cons (fuel : Nat) (c : Char)
    (h : (c = ' ' || c = '\t' || c = '\n' || c = '\r') = true) (l : List Char) :
    jsonParseValue fuel (c :: l) = jsonParseValue fuel l := by
  cases fuel with
  | zero => rfl
  | succ g =>
      show jsonParseValueCore (jsonParseArrItems g) (jsonParseObjFields g)
          (jsonSkipWs (c :: l)) =
        jsonParseValueCore (jsonParseArrItems g) (jsonParseObjFields g) (jsonSkipWs l)
      exact congrArg _ (jsonSkipWs_cons_ws c h l)

/-- The array-items loop ignores one leading whitespace character. -/
theorem jsonParseArrItems_ws_cons (fuel : Nat) (c : Char)
    (h : (c = ' ' || c = '\t' || c = '\n' || c = '\r') = true) (l : List Char)
    (acc : List PValue) :
    jsonParseArrItems fuel (c :: l) acc = jsonParseArrItems fuel l acc := by
  cases fuel with
  | zero => rfl
  | succ g =>
      show jsonParseArrItemsCore (jsonParseArrItems g) (jsonParseValue g (c :: l)) acc =
        jsonParseArrItemsCore (jsonParseArrItems g) (jsonParseValue g l) acc
      rw [jsonParseValue_ws_cons g c h l]

/-- The object-fields loop ignores one leading whitespace character. -/
theorem jsonParseObjFields_ws_cons (fuel : Nat) (c : Char)
    (h : (c = ' ' || c = '\t' || c = '\n' || c = '\r') = true) (l : List Char)
    (acc : List (String × PValue)) :
    jsonParseObjFields fuel (c :: l) acc = jsonParseObjFields fuel l acc := by
  cases fuel with
  | zero => rfl
  | succ g =>
      show jsonParseObjFieldsCore (jsonParseValue g) (jsonParseObjFields g)
          (jsonSkipWs (c :: l)) acc =
        jsonParseObjFieldsCore (jsonParseValue g) (jsonParseObjFields g) (jsonSkipWs l) acc
      rw [jsonSkipWs_cons_ws c h l]

/-- The dumped text of a serializer-safe value starts with a
distinctive non-whitespace character. -/
theorem jsonDumps_head (v : PValue) (h : jsonSafe v = true) :
    ∃ c t, (jsonDumps v).data = c :: t ∧
      (c = ' ' || c = '\t' || c = '\n' || c = '\r') = false ∧
      c ≠ ']' ∧ c ≠ '\x7d' := by
  cases v with
  | null => exact ⟨'n', ['u', 'l', 'l'], rfl, by decide, by decide, by decide⟩
  | bool b => simp [jsonSafe] at h
  | num raw => simp [jsonSafe] at h
  | str s =>
      refine ⟨'"', s.data.flatMap jsonEscapeChar ++ ['"'], ?_, by decide, by decide, by decide⟩
      simp [jsonDumps, jsonQuote]
  | arr l =>
      refine ⟨'[', (jsonDumpsArr l).data ++ [']'], ?_, by decide, by decide, by decide⟩
      simp [jsonDumps]
  | obj l =>
      refine ⟨'\x7b', (jsonDumpsObjFields l).data ++ ['\x7d'], ?_, by decide, by decide, by decide⟩
      simp [jsonDumps]

/-- Elements of a safe list are safe. -/
theorem jsonSafeList_mem : ∀ (l : List PValue), jsonSafeList l = true →
    ∀ w ∈ l, jsonSafe w = true := by
  intro l
  induction l with
  | nil => intro _ w hw; cases hw
  | cons v rest ih =>
      intro hs w hw
      simp only [jsonSafeList, Bool.and_eq_true] at hs
      rcases List.mem_cons.mp hw with he | hm
      · subst he; exact hs.1
      · exact ih hs.2 w hm

/-- Values of safe fields are safe. -/
theorem jsonSafeFields_mem : ∀ (l : List (String × PValue)), jsonSafeFields l = true →
    ∀ kv ∈ l, jsonSafe kv.2 = true := by
  intro l
  induction l with
  | nil => intro _ kv hkv; cases hkv
  | cons p rest ih =>
      intro hs kv hkv
      simp only [jsonSafeFields, Bool.and_eq_true] at hs
      rcases List.mem_cons.mp hkv with he | hm
      · subst he; exact hs.1
      · exact ih hs.2 kv hm

/-- The dumped text of a nonempty safe array body starts with a
distinctive non-whitespace character. -/
theorem jsonDumpsArr_head (l : List PValue) (hne : l ≠ [])
    (hsafe : jsonSafeList l = true) :
    ∃ c t, (jsonDumpsArr l).data = c :: t ∧
      (c = ' ' || c = '\t' || c = '\n' || c = '\r') = false ∧
      c ≠ ']' ∧ c ≠ '\x7d' := by
  cases l with
  | nil => exact absurd rfl hne
  | cons v rest =>
      have hv : jsonSafe v = true := jsonSafeList_mem _ hsafe v (by simp)
      obtain ⟨c, t, hd, h1, h2, h3⟩ := jsonDumps_head v hv
      cases rest with
      | nil => exact ⟨c, t, by simpa [jsonDumpsArr] using hd, h1, h2, h3⟩
      | cons w rs =>
          refine ⟨c, t ++ (", " ++ jsonDumpsArr (w :: rs)).data, ?_, h1, h2, h3⟩
          simp [jsonDumpsArr, hd]

/-- The dumped text of a nonempty object body starts with the key
quote. -/
theorem jsonDumpsObjFields_head (l : List (String × PValue)) (hne : l ≠ []) :
    ∃ t, (jsonDumpsObjFields l).data = '"' :: t := by
  cases l with
  | nil => exact absurd rfl hne
  | cons kv rest =>
      obtain ⟨k, v⟩ := kv
      cases rest with
      | nil =>
          refine ⟨k.data.flatMap jsonEscapeChar ++ ['"'] ++ (": " ++ jsonDumps v).data, ?_⟩
          simp [jsonDumpsObjFields, jsonQuote]
      | cons f rs =>
          refine ⟨k.data.flatMap jsonEscapeChar ++ ['"'] ++
            (": " ++ jsonDumps v ++ ", " ++ jsonDumpsObjFields (f :: rs)).data, ?_⟩
          simp [jsonDumpsObjFields, jsonQuote]

/-- A key flanked by distinct keys is absent on the left. -/
theorem keysDistinct_not_mem (k : String) : ∀ (as bs : List String),
    keysDistinct (as ++ k :: bs) = true → k ∉ as := by
  intro as
  induction as with
  | nil => intro bs _; simp
  | cons a rest ih =>
      intro bs h
      simp only [List.cons_append, keysDistinct, Bool.and_eq_true] at h
      intro hmem
      rcases List.mem_cons.mp hmem with he | hm
      · subst he
        have hc : (rest ++ k :: bs).contains k = true := by
          simp [List.contains_eq_any_beq]
        simp [hc] at h
      · exact ih bs h.2 hm


/-- A member of a list is cheaper than the whole item loop. -/
theorem jcostList_lt_of_mem : ∀ (l : List PValue) (w : PValue), w ∈ l →
    jcost w < 1 + jcostList l := by
  intro l
  induction l with
  | nil => intro w hw; cases hw
  | cons v rest ih =>
      intro w hw
      rcases List.mem_cons.mp hw with he | hm
      · subst he; simp only [jcostList]; omega
      · have := ih w hm; simp only [jcostList]; omega

/-- A member of a field list is cheaper than the whole field loop. -/
theorem jcostFields_lt_of_mem : ∀ (l : List (String × PValue)) (kv : String × PValue),
    kv ∈ l → jcost kv.2 < 1 + jcostFields l := by
  intro l
  induction l with
  | nil => intro kv hkv; cases hkv
  | cons p rest ih =>
      intro kv hkv
      rcases List.mem_cons.mp hkv with he | hm
      · subst he; simp only [jcostFields]; omega
      · have := ih kv hm; simp only [jcostFields]; omega

/-- Item-loop fuel is bounded by the dumped length. -/
theorem jcostList_le (l : List PValue)
    (helem : ∀ w ∈ l, jcost w ≤ 4 * (jsonDumps w).data.length) :
    jcostList l ≤ 4 * (jsonDumpsArr l).data.length + 1 := by
  induction l with
  | nil => simp [jcostList]
  | cons v rest ih =>
      have hv := helem v (by simp)
      cases rest with
      | nil => simp only [jcostList, jsonDumpsArr]; omega
      | cons w rs =>
          have ih2 := ih (fun x hx => helem x (by simp [hx]))
          have hlen : (jsonDumpsArr (v :: w :: rs)).data.length =
              (jsonDumps v).data.length + 2 + (jsonDumpsArr (w :: rs)).data.length := by
            show (jsonDumps v ++ ", " ++ jsonDumpsArr (w :: rs)).data.length = _
            simp [String.data_append]
            omega
          simp only [jcostList] at *
          omega

/-- Field-loop fuel is bounded by the dumped length. -/
theorem jcostFields_le (l : List (String × PValue))
    (helem : ∀ kv ∈ l, jcost kv.2 ≤ 4 * (jsonDumps kv.2).data.length) :
    jcostFields l ≤ 4 * (jsonDumpsObjFields l).data.length + 1 := by
  induction l with
  | nil => simp [jcostFields]
  | cons p rest ih =>
      obtain ⟨k, v⟩ := p
      have hv := helem (k, v) (by simp)
      cases rest with
      | nil =>
          have hlen : (jsonDumps v).data.length ≤
              (jsonDumpsObjFields [(k, v)]).data.length := by
            show _ ≤ (jsonQuote k ++ ": " ++ jsonDumps v).data.length
            simp [String.data_append]
            omega
          simp only [jcostFields] at *
          omega
      | cons f rs =>
          have ih2 := ih (fun x hx => helem x (by simp [hx]))
          have hlen : (jsonDumps v).data.length +
              (jsonDumpsObjFields (f :: rs)).data.length + 4 ≤
              (jsonDumpsObjFields ((k, v) :: f :: rs)).data.length := by
            show _ ≤ (jsonQuote k ++ ": " ++ jsonDumps v ++ ", " ++
              jsonDumpsObjFields (f :: rs)).data.length
            simp [jsonQuote, String.data_append]
            omega
          simp only [jcostFields] at *
          omega

/-- Parser fuel needed on a dumped value is bounded by the dumped
length. -/
theorem jcost_le_dumps : ∀ (n : Nat) (v : PValue), jcost v ≤ n → jsonSafe v = true →
    jcost v ≤ 4 * (jsonDumps v).data.length := by
  intro n
  induction n using Nat.strong_induction_on with
  | _ n ih =>
      intro v hn hsafe
      cases v with
      | null => decide
      | bool b => simp [jsonSafe] at hsafe
      | num raw => simp [jsonSafe] at hsafe
      | str s =>
          have hlen : (jsonDumps (.str s)).data.length =
              2 + (s.data.flatMap jsonEscapeChar).length := by
            show (("\"" : String) ++ ⟨s.data.flatMap jsonEscapeChar⟩ ++ "\"").data.length = _
            simp [String.data_append]
            omega
          simp only [jcost]
          omega
      | arr l =>
          have hsl : jsonSafeList l = true := by simpa [jsonSafe] using hsafe
          have helem : ∀ w ∈ l, jcost w ≤ 4 * (jsonDumps w).data.length := by
            intro w hw
            have hlt : jcost w < jcost (.arr l) := by
              have := jcostList_lt_of_mem l w hw
              simp only [jcost]; omega
            exact ih (jcost w) (by omega) w le_rfl (jsonSafeList_mem l hsl w hw)
          have hcl := jcostList_le l helem
          have hlen : (jsonDumps (.arr l)).data.length =
              2 + (jsonDumpsArr l).data.length := by
            show (("[" : String) ++ jsonDumpsArr l ++ "]").data.length = _
            simp [String.data_append]
            omega
          simp only [jcost]
          omega
      | obj l =>
          have hsf : jsonSafeFields l = true := by
            simp only [jsonSafe, Bool.and_eq_true] at hsafe
            exact hsafe.2
          have helem : ∀ kv ∈ l, jcost kv.2 ≤ 4 * (jsonDumps kv.2).data.length := by
            intro kv hkv
            have hlt : jcost kv.2 < jcost (.obj l) := by
              have := jcostFields_lt_of_mem l kv hkv
              simp only [jcost]; omega
            exact ih (jcost kv.2) (by omega) kv.2 le_rfl (jsonSafeFields_mem l hsf kv hkv)
          have hcf := jcostFields_le l helem
          have hlen : (jsonDumps (.obj l)).data.length =
              2 + (jsonDumpsObjFields l).data.length := by
            show (("\x7b" : String) ++ jsonDumpsObjFields l ++ "\x7d").data.length = _
            simp [String.data_append]
            omega
          simp only [jcost]
          omega


/-- Evaluating the object-fields parser on a dumped key. -/
theorem jsonParseObjFieldsCore_quote
    (pv : List Char → Option (PValue × List Char))
    (po : List Char → List (String × PValue) → Option (List (String × PValue) × List Char))
    (k : String) (rest2 : List Char) (acc : List (String × PValue)) :
    jsonParseObjFieldsCore pv po ('"' :: (k.data.flatMap jsonEscapeChar ++ '"' :: rest2)) acc =
      (match jsonSkipWs rest2 with
       | ':' :: r3 =>
           (match pv r3 with
            | none => none
            | some (v, r4) =>
               match jsonSkipWs r4 with
               | ',' :: r5 => po r5 (insertOverwrite acc (k, v))
               | '\x7d' :: r5 => some (insertOverwrite acc (k, v), r5)
               | _ => none)
       | _ => none) := by
  show (match jsonParseStringAux ((k.data.flatMap jsonEscapeChar ++ '"' :: rest2).length + 1)
        (k.data.flatMap jsonEscapeChar ++ '"' :: rest2) with
      | none => none
      | some (kk, r2) =>
          match jsonSkipWs r2 with
          | ':' :: r3 =>
              (match pv r3 with
               | none => none
               | some (v, r4) =>
                  match jsonSkipWs r4 with
                  | ',' :: r5 => po r5 (insertOverwrite acc (⟨kk⟩, v))
                  | '\x7d' :: r5 => some (insertOverwrite acc (⟨kk⟩, v), r5)
                  | _ => none)
          | _ => none) = _
  rw [jsonParseStringAux_escape k.data rest2 _ (by
    have := length_le_flatMap_escape k.data
    simp only [List.length_append, List.length_cons]
    omega)]

/-- The JSON parser inverts the dumper: dumped values, array bodies and
object bodies parse back, by induction on fuel. -/
theorem jsonParse_inverts : ∀ fuel : Nat,
    (∀ v suffix, jsonSafe v = true → jcost v < fuel →
        jsonParseValue fuel ((jsonDumps v).data ++ suffix) = some (v, suffix)) ∧
    (∀ l acc suffix, jsonSafeList l = true → l ≠ [] → jcostList l < fuel →
        jsonParseArrItems fuel ((jsonDumpsArr l).data ++ ']' :: suffix) acc =
          some (acc ++ l, suffix)) ∧
    (∀ l acc suffix, jsonSafeFields l = true → l ≠ [] →
        keysDistinct ((acc ++ l).map Prod.fst) = true → jcostFields l < fuel →
        jsonParseObjFields fuel ((jsonDumpsObjFields l).data ++ '\x7d' :: suffix) acc =
          some (acc ++ l, suffix)) := by
  intro fuel
  induction fuel with
  | zero =>
      exact ⟨fun v suffix hs hc => absurd hc (by omega),
             fun l acc suffix hs hne hc => absurd hc (by omega),
             fun l acc suffix hs hne hd hc => absurd hc (by omega)⟩
  | succ g ih =>
      obtain ⟨ihP, ihQ, ihR⟩ := ih
      refine ⟨?_, ?_, ?_⟩
      · intro v suffix hsafe hcost
        cases v with
        | null => rfl
        | bool b => simp [jsonSafe] at hsafe
        | num raw => simp [jsonSafe] at hsafe
        | str s =>
            rw [show (jsonDumps (.str s)).data ++ suffix =
                '"' :: (s.data.flatMap jsonEscapeChar ++ '"' :: suffix) from by
              simp [jsonDumps, jsonQuote]]
            show (jsonParseStringAux
                ((s.data.flatMap jsonEscapeChar ++ '"' :: suffix).length + 1)
                (s.data.flatMap jsonEscapeChar ++ '"' :: suffix)).map
                (fun p => (PValue.str ⟨p.1⟩, p.2)) = some (.str s, suffix)
            rw [jsonParseStringAux_escape s.data suffix _ (by
              have := length_le_flatMap_escape s.data
              simp only [List.length_append, List.length_cons]
              omega)]
            rfl
        | arr l =>
            cases l with
            | nil => rfl
            | cons w rest =>
                have hsl : jsonSafeList (w :: rest) = true := by simpa [jsonSafe] using hsafe
                rw [show (jsonDumps (.arr (w :: rest))).data ++ suffix =
                    '[' :: ((jsonDumpsArr (w :: rest)).data ++ ']' :: suffix) from by
                  simp [jsonDumps]]
                show (match jsonSkipWs ((jsonDumpsArr (w :: rest)).data ++ ']' :: suffix) with
                      | ']' :: r2 => some (PValue.arr [], r2)
                      | _ => (jsonParseArrItems g
                          ((jsonDumpsArr (w :: rest)).data ++ ']' :: suffix) []).map
                          (fun p => (PValue.arr p.1, p.2)))
                    = some (.arr (w :: rest), suffix)
                obtain ⟨c, t, hd, hws, hrb, hcb⟩ := jsonDumpsArr_head (w :: rest) (by simp) hsl
                have hskip : jsonSkipWs ((jsonDumpsArr (w :: rest)).data ++ ']' :: suffix) =
                    (jsonDumpsArr (w :: rest)).data ++ ']' :: suffix := by
                  rw [hd, List.cons_append, jsonSkipWs_cons_no_ws c hws]
                rw [hskip]
                split
                · next r2 heq =>
                    rw [hd, List.cons_append] at heq
                    injection heq with h1 h2
                    exact absurd h1 hrb
                · rw [ihQ (w :: rest) [] suffix hsl (by simp)
                    (by simp only [jcost, jcostList, jcostFields] at hcost ⊢; omega)]
                  simp
        | obj l =>
            cases l with
            | nil => rfl
            | cons kv rest =>
                have hparts : keysDistinct ((kv :: rest).map Prod.fst) = true ∧
                    jsonSafeFields (kv :: rest) = true := by
                  simpa [jsonSafe, Bool.and_eq_true] using hsafe
                rw [show (jsonDumps (.obj (kv :: rest))).data ++ suffix =
                    '\x7b' :: ((jsonDumpsObjFields (kv :: rest)).data ++ '\x7d' :: suffix) from by
                  simp [jsonDumps]]
                show (match jsonSkipWs ((jsonDumpsObjFields (kv :: rest)).data ++ '\x7d' :: suffix) with
                      | '\x7d' :: r2 => some (PValue.obj [], r2)
                      | _ => (jsonParseObjFields g
                          ((jsonDumpsObjFields (kv :: rest)).data ++ '\x7d' :: suffix) []).map
                          (fun p => (PValue.obj p.1, p.2)))
                    = some (.obj (kv :: rest), suffix)
                obtain ⟨t, hd⟩ := jsonDumpsObjFields_head (kv :: rest) (by simp)
                have hskip : jsonSkipWs ((jsonDumpsObjFields (kv :: rest)).data ++ '\x7d' :: suffix) =
                    (jsonDumpsObjFields (kv :: rest)).data ++ '\x7d' :: suffix := by
                  rw [hd, List.cons_append, jsonSkipWs_cons_no_ws '"' (by decide)]
                rw [hskip]
                split
                · next r2 heq =>
                    rw [hd, List.cons_append] at heq
                    injection heq with h1 h2
                    exact absurd h1 (by decide)
                · rw [ihR (kv :: rest) [] suffix hparts.2 (by simp)
                    (by simpa using hparts.1)
                    (by simp only [jcost, jcostList, jcostFields] at hcost ⊢; omega)]
                  simp
      · intro l acc suffix hsl hne hcost
        cases l with
        | nil => exact absurd rfl hne
        | cons v rest =>
            have hv : jsonSafe v = true := jsonSafeList_mem _ hsl v (by simp)
            show jsonParseArrItemsCore (jsonParseArrItems g)
                (jsonParseValue g ((jsonDumpsArr (v :: rest)).data ++ ']' :: suffix)) acc =
              some (acc ++ v :: rest, suffix)
            cases rest with
            | nil =>
                rw [show (jsonDumpsArr [v]).data = (jsonDumps v).data from rfl]
                rw [ihP v (']' :: suffix) hv (by simp only [jcostList] at hcost ⊢; omega)]
                rfl
            | cons w rs =>
                rw [show (jsonDumpsArr (v :: w :: rs)).data ++ ']' :: suffix =
                    (jsonDumps v).data ++
                      (',' :: ' ' :: ((jsonDumpsArr (w :: rs)).data ++ ']' :: suffix)) from by
                  show (jsonDumps v ++ ", " ++ jsonDumpsArr (w :: rs)).data ++ _ = _
                  simp [String.data_append]]
                rw [ihP v _ hv (by simp only [jcostList] at hcost ⊢; omega)]
                show jsonParseArrItems g
                    (' ' :: ((jsonDumpsArr (w :: rs)).data ++ ']' :: suffix)) (acc ++ [v]) =
                  some (acc ++ v :: w :: rs, suffix)
                rw [jsonParseArrItems_ws_cons g ' ' (by decide)]
                rw [ihQ (w :: rs) (acc ++ [v]) suffix
                  (by simp only [jsonSafeList, Bool.and_eq_true] at hsl ⊢; exact hsl.2)
                  (by simp) (by simp only [jcostList] at hcost ⊢; omega)]
                simp
      · intro l acc suffix hsf hne hdist hcost
        cases l with
        | nil => exact absurd rfl hne
        | cons kv rest =>
            obtain ⟨k, v⟩ := kv
            have hv : jsonSafe v = true := jsonSafeFields_mem _ hsf (k, v) (by simp)
            have hknotin : k ∉ acc.map Prod.fst := by
              apply keysDistinct_not_mem k (acc.map Prod.fst) (rest.map Prod.fst)
              simpa [List.map_append] using hdist
            show jsonParseObjFieldsCore (jsonParseValue g) (jsonParseObjFields g)
                (jsonSkipWs ((jsonDumpsObjFields ((k, v) :: rest)).data ++ '\x7d' :: suffix)) acc =
              some (acc ++ (k, v) :: rest, suffix)
            cases rest with
            | nil =>
                rw [show (jsonDumpsObjFields [(k, v)]).data ++ '\x7d' :: suffix =
                    '"' :: (k.data.flatMap jsonEscapeChar ++ '"' ::
                      (':' :: ' ' :: ((jsonDumps v).data ++ '\x7d' :: suffix))) from by
                  show (jsonQuote k ++ ": " ++ jsonDumps v).data ++ _ = _
                  simp [jsonQuote, String.data_append]]
                rw [jsonSkipWs_cons_no_ws '"' (by decide)]
                rw [jsonParseObjFieldsCore_quote]
                show (match jsonParseValue g
                      (' ' :: ((jsonDumps v).data ++ '\x7d' :: suffix)) with
                    | none => none
                    | some (v2, r4) =>
                        match jsonSkipWs r4 with
                        | ',' :: r5 => jsonParseObjFields g r5 (insertOverwrite acc (k, v2))
                        | '\x7d' :: r5 => some (insertOverwrite acc (k, v2), r5)
                        | _ => none)
                    = some (acc ++ [(k, v)], suffix)
                rw [jsonParseValue_ws_cons g ' ' (by decide)]
                rw [ihP v _ hv (by simp only [jcostFields] at hcost ⊢; omega)]
                show some (insertOverwrite acc (k, v), suffix) = some (acc ++ [(k, v)], suffix)
                rw [insertOverwrite_of_not_mem acc (k, v) hknotin]
            | cons f rs =>
                rw [show (jsonDumpsObjFields ((k, v) :: f :: rs)).data ++ '\x7d' :: suffix =
                    '"' :: (k.data.flatMap jsonEscapeChar ++ '"' ::
                      (':' :: ' ' :: ((jsonDumps v).data ++
                        (',' :: ' ' :: ((jsonDumpsObjFields (f :: rs)).data ++
                          '\x7d' :: suffix))))) from by
                  show (jsonQuote k ++ ": " ++ jsonDumps v ++ ", " ++
                    jsonDumpsObjFields (f :: rs)).data ++ _ = _
                  simp [jsonQuote, String.data_append]]
                rw [jsonSkipWs_cons_no_ws '"' (by decide)]
                rw [jsonParseObjFieldsCore_quote]
                show (match jsonParseValue g
                      (' ' :: ((jsonDumps v).data ++
                        (',' :: ' ' :: ((jsonDumpsObjFields (f :: rs)).data ++
                          '\x7d' :: suffix)))) with
                    | none => none
                    | some (v2, r4) =>
                        match jsonSkipWs r4 with
                        | ',' :: r5 => jsonParseObjFields g r5 (insertOverwrite acc (k, v2))
                        | '\x7d' :: r5 => some (insertOverwrite acc (k, v2), r5)
                        | _ => none)
                    = some (acc ++ (k, v) :: f :: rs, suffix)
                rw [jsonParseValue_ws_cons g ' ' (by decide)]
                rw [ihP v _ hv (by simp only [jcostFields] at hcost ⊢; omega)]
                show jsonParseObjFields g
                    (' ' :: ((jsonDumpsObjFields (f :: rs)).data ++ '\x7d' :: suffix))
                    (insertOverwrite acc (k, v)) =
                  some (acc ++ (k, v) :: f :: rs, suffix)
                rw [jsonParseObjFields_ws_cons g ' ' (by decide)]
                rw [insertOverwrite_of_not_mem acc (k, v) hknotin]
                rw [ihR (f :: rs) (acc ++ [(k, v)]) suffix
                  (by simp only [jsonSafeFields, Bool.and_eq_true] at hsf ⊢; exact hsf.2)
                  (by simp)
                  (by simpa [List.append_assoc] using hdist)
                  (by simp only [jcostFields] at hcost ⊢; omega)]
                simp


/-- `json.loads` inverts `json.dumps` on serializer-safe values. -/
theorem jsonLoads_dumps (v : PValue) (h : jsonSafe v = true) :
    jsonLoads (jsonDumps v) = some v := by
  have hc : jcost v ≤ 4 * (jsonDumps v).data.length :=
    jcost_le_dumps (jcost v) v le_rfl h
  have hP := (jsonParse_inverts (4 * (jsonDumps v).data.length + 8)).1 v [] h (by omega)
  rw [List.append_nil] at hP
  show (match jsonParseValue (4 * (jsonDumps v).data.length + 8) (jsonDumps v).data with
      | some (w, rest) => if (jsonSkipWs rest).isEmpty then some w else none
      | none => none) = some v
  rw [hP]
  rfl

/-! ## The marker scan on the saved text (for C1) -/

/-- `takeWhile` keeps a list every element of which satisfies the
predicate. -/
theorem takeWhile_all {p : Char → Bool} : ∀ (l : List Char), (∀ c ∈ l, p c = true) →
    l.takeWhile p = l := by
  intro l
  induction l with
  | nil => intro h; rfl
  | cons c rest ih =>
      intro h
      simp only [List.takeWhile_cons]
      rw [if_pos (h c (by simp)), ih (fun x hx => h x (by simp [hx]))]

/-- The scan walks past a position where the marker does not match. -/
theorem scanToolDataAux_skip (fuel : Nat) (c : Char) (rest : List Char)
    (h : ("// VERILOG_TOOL_DATA: ".data).isPrefixOf (c :: rest) = false) :
    scanToolDataAux (fuel + 1) (c :: rest) = scanToolDataAux fuel rest := by
  simp only [scanToolDataAux]
  rw [if_neg (by simp [h])]

/-- The scan stops at the marker followed by the nonempty
whitespace-free payload and captures the payload. -/
theorem scanToolDataAux_found (fuel : Nat) (P : List Char) (hne : P ≠ [])
    (hns : ∀ c ∈ P, isSpaceChar c = false) :
    scanToolDataAux (fuel + 1) ("// VERILOG_TOOL_DATA: ".data ++ P) = some ⟨P⟩ := by
  have htok : P.takeWhile (fun ch => !isSpaceChar ch) = P :=
    takeWhile_all P (fun c hc => by simp [hns c hc])
  have hcons : "// VERILOG_TOOL_DATA: ".data ++ P =
      '/' :: ("/ VERILOG_TOOL_DATA: ".data ++ P) := rfl
  rw [hcons]
  simp only [scanToolDataAux]
  rw [if_pos (show (("// VERILOG_TOOL_DATA: ".data).isPrefixOf
      ('/' :: ("/ VERILOG_TOOL_DATA: ".data ++ P))) = true from by
    rw [← hcons]
    exact List.isPrefixOf_iff_prefix.mpr (List.prefix_append _ _))]
  rw [show ('/' :: ("/ VERILOG_TOOL_DATA: ".data ++ P)).drop
      ("// VERILOG_TOOL_DATA: ".data).length = P from by
    rw [← hcons]
    exact List.drop_left _ _]
  rw [htok, if_neg (by simp [hne])]

/-- The marker cannot match at a position whose tail reaches the
newline pair unless it already matched inside the prefix. -/
theorem not_prefix_marker (pre Z : List Char)
    (h : ("// VERILOG_TOOL_DATA: ".data).isPrefixOf pre = false) :
    ("// VERILOG_TOOL_DATA: ".data).isPrefixOf (pre ++ '\n' :: '\n' :: Z) = false := by
  by_contra hc
  rw [Bool.not_eq_false, List.isPrefixOf_iff_prefix] at hc
  by_cases hlen : ("// VERILOG_TOOL_DATA: ".data).length ≤ pre.length
  · have hMpre : ("// VERILOG_TOOL_DATA: ".data) <+: pre :=
      List.prefix_of_prefix_length_le hc (List.prefix_append pre _) hlen
    have hT := List.isPrefixOf_iff_prefix.mpr hMpre
    rw [h] at hT
    simp at hT
  · push_neg at hlen
    have hpreM : pre <+: ("// VERILOG_TOOL_DATA: ".data) :=
      List.prefix_of_prefix_length_le (List.prefix_append pre _) hc (by omega)
    obtain ⟨u, hu⟩ := hpreM
    obtain ⟨t, ht⟩ := hc
    rw [← hu, List.append_assoc] at ht
    have ht2 : u ++ t = '\n' :: '\n' :: Z := List.append_cancel_left ht
    cases u with
    | nil =>
        rw [List.append_nil] at hu
        subst hu
        exact absurd hlen (lt_irrefl _)
    | cons a u2 =>
        have ha : a = '\n' := by
          simp only [List.cons_append] at ht2
          injection ht2 with h1 h2
        have hmem : a ∈ ("// VERILOG_TOOL_DATA: " : String).data := by
          rw [← hu]; simp
        rw [ha] at hmem
        exact (show ∀ c ∈ ("// VERILOG_TOOL_DATA: " : String).data, c ≠ '\n' by decide)
          '\n' hmem rfl

/-- Scanning a marker-free prefix, the newline pair, the marker and the
payload finds exactly the payload. -/
theorem scanToolDataAux_walk (P : List Char) (hne : P ≠ [])
    (hns : ∀ c ∈ P, isSpaceChar c = false) :
    ∀ (pre : List Char) (fuel : Nat), pre.length + 3 ≤ fuel →
    containsSeq ("// VERILOG_TOOL_DATA: ".data) pre = false →
    scanToolDataAux fuel
        (pre ++ '\n' :: '\n' :: ("// VERILOG_TOOL_DATA: ".data ++ P)) =
      some ⟨P⟩ := by
  intro pre
  induction pre with
  | nil =>
      intro fuel hf _
      obtain ⟨f, rfl⟩ : ∃ f, fuel = f + 3 := ⟨fuel - 3, by omega⟩
      rw [show ([] : List Char) ++ '\n' :: '\n' :: ("// VERILOG_TOOL_DATA: ".data ++ P) =
        '\n' :: ('\n' :: ("// VERILOG_TOOL_DATA: ".data ++ P)) from rfl]
      rw [show f + 3 = (f + 2) + 1 from rfl,
        scanToolDataAux_skip (f + 2) '\n' _ rfl,
        show f + 2 = (f + 1) + 1 from rfl,
        scanToolDataAux_skip (f + 1) '\n' _ rfl]
      exact scanToolDataAux_found f P hne hns
  | cons c pre2 ih =>
      intro fuel hf hfree
      obtain ⟨f, rfl⟩ : ∃ f, fuel = f + 1 := ⟨fuel - 1, by omega⟩
      simp only [containsSeq, Bool.or_eq_false_iff] at hfree
      obtain ⟨h1, h2⟩ := hfree
      rw [List.cons_append]
      rw [scanToolDataAux_skip f c _ (by
        have := not_prefix_marker (c :: pre2)
          ("// VERILOG_TOOL_DATA: ".data ++ P) h1
        simpa using this)]
      exact ih f (by simp at hf; omega) h2

/-- The scan over the saved text finds exactly the encoded payload,
provided the generated module text itself contains no occurrence of
the marker. -/
theorem scanToolData_save (st : ToolState) (top : String)
    (hfree : containsSeq ("// VERILOG_TOOL_DATA: ".data)
      (generate_top_module st.instances top).data = false) :
    scanToolData (save_project_text st top) = some (encodedPayload st) := by
  have hdata : (save_project_text st top).data =
      (generate_top_module st.instances top).data ++
        '\n' :: '\n' :: (("// VERILOG_TOOL_DATA: " : String).data ++
          (encodedPayload st).data) := by
    show ((generate_top_module st.instances top ++ "\n\n// VERILOG_TOOL_DATA: ") ++
      encodedPayload st).data = _
    rw [String.data_append, String.data_append,
      show ("\n\n// VERILOG_TOOL_DATA: " : String).data =
        '\n' :: '\n' :: ("// VERILOG_TOOL_DATA: " : String).data from by decide]
    simp
  show scanToolDataAux ((save_project_text st top).data.length + 1)
      (save_project_text st top).data = some (encodedPayload st)
  rw [hdata]
  rw [scanToolDataAux_walk (encodedPayload st).data
    (b64EncodeList_ne_nil _ (utf8Encode_ne_nil _ (serialize_data_data_ne_nil st)))
    (b64EncodeList_chars _) _ _
    (by simp only [List.length_append, List.length_cons]; omega) hfree]

/-- C1: generating the top-module text from a Registry (a module
mapping whose entries carry their key as the module name, with
distinct keys, instances whose referenced module names resolve, the
dict-invariant that the serialized value's objects have distinct keys,
and a generated text free of the embedded-data marker), then scanning
the generated text for the embedded payload and deserializing it,
yields an equal Registry: the module mapping is reconstructed exactly,
and the instance list matches on instance name, referenced module
name, connection mapping (kind and signal name) and parameter
overrides, in order; so does deserializing the serialized structure
directly. -/
theorem c1_registry_roundtrip (M : List (String × VerilogModule))
    (I : List ModuleInstance) (top : String) (st st' : ToolState)
    (hnames : ∀ p ∈ M, p.2.name = p.1)
    (hnodup : (M.map Prod.fst).Nodup)
    (hres : ∀ inst ∈ I, (alistGet M inst.module_ref.name).isSome = true)
    (hsafe : jsonSafe (serialize_value M I) = true)
    (hfree : containsSeq ("// VERILOG_TOOL_DATA: ".data)
      (generate_top_module I top).data = false) :
    (deserialize_body (serialize_value M I) st).2 = true ∧
    (deserialize_body (serialize_value M I) st).1.modules = M ∧
    (deserialize_body (serialize_value M I) st).1.instances.map instKey =
      I.map instKey ∧
    (open_project (save_project_text ⟨M, I⟩ top) st').2 = OpenOutcome.loaded ∧
    (open_project (save_project_text ⟨M, I⟩ top) st').1.modules = M ∧
    (open_project (save_project_text ⟨M, I⟩ top) st').1.instances.map instKey =
      I.map instKey := by
  have hres' : ∀ inst ∈ I, ∃ m', alistGet M inst.module_ref.name = some m' ∧
      m'.name = inst.module_ref.name := by
    intro inst hi
    obtain ⟨m', hm'⟩ := Option.isSome_iff_exists.mp (hres inst hi)
    exact ⟨m', hm', hnames _ (alistGet_mem M _ m' hm')⟩
  have hmods : loadModules (M.map (fun nm => (nm.1, moduleToP nm.2))) [] = .ok M := by
    rw [loadModules_toP M hnames []]
    rw [foldl_insertOverwrite_fresh M [] hnodup (by simp)]
    simp
  obtain ⟨I2, hI2, hkeys⟩ := loadInstances_toP M I hres' []
  have hbody : ∀ s : ToolState,
      deserialize_body (serialize_value M I) s = (⟨M, I2⟩, true) := by
    intro s
    simp [serialize_value, deserialize_body, alistGet, hmods, hI2]
  have hscan : scanToolData (save_project_text ⟨M, I⟩ top) =
      some (encodedPayload ⟨M, I⟩) :=
    scanToolData_save ⟨M, I⟩ top hfree
  have hb64 : pyB64Decode (encodedPayload ⟨M, I⟩) =
      some (utf8Encode (serialize_data ⟨M, I⟩)) :=
    pyB64Decode_encode _ (utf8Encode_lt_256 _)
  have hutf := utf8Decode_encode (serialize_data ⟨M, I⟩)
  have hloads : jsonLoads (serialize_data ⟨M, I⟩) = some (serialize_value M I) :=
    jsonLoads_dumps _ hsafe
  have hopen : open_project (save_project_text ⟨M, I⟩ top) st' =
      ((⟨M, I2⟩ : ToolState), .loaded) := by
    simp [open_project, hscan, hb64, hutf, deserialize_data, hloads, hbody st']
  rw [hbody st, hopen]
  exact ⟨rfl, rfl, by simpa using hkeys, rfl, rfl, by simpa using hkeys⟩

set_option maxRecDepth 65536 in
/-- Witness for C1 at the sample registry. -/
theorem c1_registry_roundtrip_witness :
    (∀ p ∈ sampleState.modules, p.2.name = p.1) ∧
    (sampleState.modules.map Prod.fst).Nodup ∧
    (∀ inst ∈ sampleState.instances,
       (alistGet sampleState.modules inst.module_ref.name).isSome = true) ∧
    jsonSafe (serialize_value sampleState.modules sampleState.instances) = true ∧
    containsSeq ("// VERILOG_TOOL_DATA: ".data)
      (generate_top_module sampleState.instances "top").data = false ∧
    (open_project (save_project_text sampleState "top") ⟨[], []⟩).2 =
      OpenOutcome.loaded ∧
    (open_project (save_project_text sampleState "top") ⟨[], []⟩).1.modules =
      sampleState.modules ∧
    (open_project (save_project_text sampleState "top") ⟨[], []⟩).1.instances.map
      instKey = sampleState.instances.map instKey ∧
    (deserialize_body (serialize_value sampleState.modules sampleState.instances)
        ⟨[], []⟩).2 = true :=
  ⟨by decide, by decide, by decide, by decide, by decide,
   (c1_registry_roundtrip sampleState.modules sampleState.instances "top"
     ⟨[], []⟩ ⟨[], []⟩ (by decide) (by decide) (by decide) (by decide)
     (by decide)).2.2.2.1,
   (c1_registry_roundtrip sampleState.modules sampleState.instances "top"
     ⟨[], []⟩ ⟨[], []⟩ (by decide) (by decide) (by decide) (by decide)
     (by decide)).2.2.2.2.1,
   (c1_registry_roundtrip sampleState.modules sampleState.instances "top"
     ⟨[], []⟩ ⟨[], []⟩ (by decide) (by decide) (by decide) (by decide)
     (by decide)).2.2.2.2.2,
   (c1_registry_roundtrip sampleState.modules sampleState.instances "top"
     ⟨[], []⟩ ⟨[], []⟩ (by decide) (by decide) (by decide) (by decide)
     (by decide)).1⟩

end AiVbuilder
